import Mathlib

/-!
Verification development for `images/capi/hack/customize-ova.py`, the OVF
metadata editor of this repository.  The Python tool manipulates an lxml
element tree; here the tree, the namespace-qualified queries, the
serializer, the manifest rewriting and the mutators are embedded as
executable Lean definitions, and the claimed properties are proved about
them.

Modelling conventions, shared by all definitions below:

* lxml element trees are modelled by the inductive `Node`: an element
  carries its tag (in Clark notation `{uri}local`, exactly as lxml stores
  namespace-qualified names), its attribute list in document order, its
  optional text, and its child list (which, as in lxml, may contain
  comment nodes).  Braces of Clark notation are written with `\x7b`/`\x7d`
  escapes.
* live element references (`self.productSection`, …) are modelled as
  paths (child-index lists) into the owned tree, and mutation through a
  reference becomes `modifyAt` at that path.
* the filesystem is a partial map from path strings to file contents;
  `open(p, "w").write(s)` becomes `writeFile`.
* `hashlib.sha1`/`hashlib.sha256` are external primitives; they are passed
  as abstract `String → String` parameters (`sha1`, `sha256`), because
  every property claimed about the tool depends only on *which* string is
  digested, never on the digest bits themselves.
* Python exceptions (`IndexError` from `xpath(...)[0]`, `IOError` from a
  missing manifest) are modelled with `Option`/error components; a raised
  exception leaves the partially mutated object state visible, exactly as
  in Python, so the model returns the partially updated state next to the
  error marker.
-/

namespace CustomizeOva

/-- An lxml node: an element (tag in Clark notation, attributes in document
order, optional text, children) or a comment. -/
inductive Node where
  | elem (tag : String) (attrs : List (String × String)) (text : Option String) (children : List Node)
  | comment (text : String)

/-- Children of a node (comments have none). -/
def children : Node → List Node
  | Node.elem _ _ _ cs => cs
  | Node.comment _ => []

/-- Attribute list of a node. -/
def attrsOf : Node → List (String × String)
  | Node.elem _ a _ _ => a
  | Node.comment _ => []

/-- Text of a node (for a comment, its content, as in lxml). -/
def textOf : Node → Option String
  | Node.elem _ _ t _ => t
  | Node.comment t => some t

/-- Tag of a node, if it is an element. -/
def tagOf : Node → Option String
  | Node.elem t _ _ _ => some t
  | Node.comment _ => none

/-- First-match attribute lookup, the model of `element.get(name)` /
`element.attrib[name]`. -/
def attrGet : List (String × String) → String → Option String
  | [], _ => none
  | (k, v) :: rest, q => if q = k then some v else attrGet rest q

/-- Replace the element at index `i` of a list by `f` of it; out-of-range
indices leave the list unchanged. -/
def modifyIdx (f : α → α) : Nat → List α → List α
  | _, [] => []
  | 0, a :: as => f a :: as
  | n + 1, a :: as => a :: modifyIdx f n as

/-- A path of child indices leading from the document root to a node; the
model of a live lxml element reference. -/
abbrev Path := List Nat

/-- Node reached from `n` by following the child indices of `p`. -/
def getAt : Path → Node → Option Node
  | [], n => some n
  | i :: p, Node.elem _ _ _ cs =>
    match cs.get? i with
    | some c => getAt p c
    | none => none
  | _ :: _, Node.comment _ => none

/-- Apply `f` to the node reached by path `p`; invalid paths leave the tree
unchanged. -/
def modifyAt : Path → (Node → Node) → Node → Node
  | [], f, n => f n
  | i :: p, f, Node.elem t a x cs => Node.elem t a x (modifyIdx (modifyAt p f) i cs)
  | _ :: _, _, n => n

/-- Two paths are disjoint when neither is a prefix of the other: the nodes
they address lie in unrelated subtrees. -/
def PathDisjoint (p q : Path) : Prop := ¬ p <+: q ∧ ¬ q <+: p

instance (p q : Path) : Decidable (PathDisjoint p q) :=
  decidable_of_iff (¬ p <+: q ∧ ¬ q <+: p) Iff.rfl

/-- First-match lookup in the namespace prefix map, the model of
`self.nsMap[ns]` (line 57). -/
def nsLookup (nm : List (String × String)) (ns : String) : String
  := match nm with
  | [] => ""
  | (k, v) :: rest => if ns = k then v else nsLookup rest ns

/-- Model of `OVFCustomizer.nsName` (lines 56-57): build the Clark-notation
qualified name `{uri}name` from a namespace prefix and a local name. -/
def nsName (nm : List (String × String)) (ns name : String) : String :=
  "\x7b" ++ nsLookup nm ns ++ "\x7d" ++ name

/-- One XPath location step as used by the tool: a prefixed name test with
an optional `[@pfx:attr="value"]` predicate. -/
structure Step where
  ns : String
  loc : String
  filter : Option (String × String × String)

/-- Does a node match a step?  Elements match when their Clark tag equals
the step's qualified name and the attribute predicate (if any) holds;
comments never match a name test. -/
def matchesStep (nm : List (String × String)) (s : Step) : Node → Bool
  | Node.elem t attrs _ _ =>
    decide (t = nsName nm s.ns s.loc) &&
      (match s.filter with
       | none => true
       | some (fns, fname, fval) => decide (attrGet attrs (nsName nm fns fname) = some fval))
  | Node.comment _ => false

/-- Indices (in document order) of the children matching a step: the model
of a relative single-step `self.xpath(path, root)` query (lines 59-61). -/
def matchIdxs (nm : List (String × String)) (s : Step) : List Node → List Nat
  | [] => []
  | c :: cs =>
    if matchesStep nm s c then 0 :: (matchIdxs nm s cs).map (· + 1)
    else (matchIdxs nm s cs).map (· + 1)

/-- Child of `n` at index `i`. -/
def childAt (n : Node) (i : Nat) : Option Node := (children n).get? i

/-- Model of an absolute three-step query `/pfx:A/pfx:B/pfx:C` rooted at the
document (lines 43-50): the root element must match the first step, and the
result lists, in document order, the paths of the grandchildren matched by
the remaining two steps. -/
def anchorQuery (nm : List (String × String)) (s1 s2 s3 : Step) (root : Node) : List Path :=
  if matchesStep nm s1 root then
    (matchIdxs nm s2 (children root)).flatMap (fun i =>
      match childAt root i with
      | some c => (matchIdxs nm s3 (children c)).map (fun j => [i, j])
      | none => [])
  else []

/-- Name-test step in the `ovf` namespace. -/
def ovfStep (l : String) : Step := ⟨"ovf", l, none⟩

/-- The query `/ovf:Envelope/ovf:VirtualSystem/ovf:ProductSection` (43-44). -/
def productQuery (nm : List (String × String)) (root : Node) : List Path :=
  anchorQuery nm (ovfStep "Envelope") (ovfStep "VirtualSystem") (ovfStep "ProductSection") root

/-- The query `/ovf:Envelope/ovf:VirtualSystem/ovf:VirtualHardwareSection` (45-46). -/
def vhwQuery (nm : List (String × String)) (root : Node) : List Path :=
  anchorQuery nm (ovfStep "Envelope") (ovfStep "VirtualSystem") (ovfStep "VirtualHardwareSection") root

/-- The query `/ovf:Envelope/ovf:VirtualSystem/ovf:AnnotationSection` (47-48). -/
def annoQuery (nm : List (String × String)) (root : Node) : List Path :=
  anchorQuery nm (ovfStep "Envelope") (ovfStep "VirtualSystem") (ovfStep "AnnotationSection") root

/-- The query `/ovf:Envelope/ovf:References/ovf:File` (49-50). -/
def fileQuery (nm : List (String × String)) (root : Node) : List Path :=
  anchorQuery nm (ovfStep "Envelope") (ovfStep "References") (ovfStep "File") root

/-- The editor state held by a constructed `OVFCustomizer` (lines 35-50):
directory and filename of the descriptor, the namespace map captured from
the document root, the owned document tree, and the four anchor references
(as paths). -/
structure OVFCustomizer where
  ovfDir : String
  ovfFilename : String
  nsMap : List (String × String)
  ovfXml : Node
  productSection : Path
  vhwSection : Path
  annoSection : Path
  FileSection : Path

/-- Anchor resolution of `OVFCustomizer.__init__` (lines 43-50) on an
already parsed document: each of the four fixed queries is evaluated and
its result indexed with `[0]`, which takes the first match and raises
(`IndexError`, here `none`) exactly when the query returned no match. -/
def loadDoc (ovfDir ovfFilename : String) (nm : List (String × String)) (doc : Node) :
    Option OVFCustomizer :=
  match productQuery nm doc, vhwQuery nm doc, annoQuery nm doc, fileQuery nm doc with
  | p :: _, v :: _, a :: _, f :: _ => some ⟨ovfDir, ovfFilename, nm, doc, p, v, a, f⟩
  | _, _, _, _ => none

/-! ### Serializer: model of `OVFCustomizer.xmlToString` (lines 141-144)

`etree.tostring(xml, pretty_print=True, xml_declaration=True,
encoding='utf-8').decode('utf-8')`: an XML declaration line, then the tree
pretty-printed with two-space indentation, one node per line, a leaf
element's text inline.  Names and text are emitted verbatim (the
well-formedness predicate used by the round-trip theorems restricts to
strings on which lxml's escaping is the identity). -/

/-- Pretty-printer indentation: two spaces per depth level. -/
def indentChars (d : Nat) : List Char := List.replicate (2 * d) ' '

/-- Serialized attribute list: ` name="value"` for each pair, in order. -/
def printAttrsChars : List (String × String) → List Char
  | [] => []
  | (k, v) :: rest => ' ' :: (k.data ++ '=' :: '"' :: (v.data ++ '"' :: printAttrsChars rest))

mutual

/-- Characters of one pretty-printed node at depth `d`.  A childless element
with text prints inline (`<t>text</t>`); a childless element without text
self-closes (`<t/>`); an element with children opens, prints the children
one level deeper and closes on its own line.  (An element with both text
and children — mixed content, which lxml does not pretty-print — is
approximated by emitting the text after the opening tag; the well-formed
fragment excludes it.) -/
def printNodeChars : Nat → Node → List Char
  | d, Node.comment t =>
    indentChars d ++ '<' :: '!' :: '-' :: '-' :: (t.data ++ '-' :: '-' :: '>' :: ['\n'])
  | d, Node.elem t a txt cs =>
    match cs with
    | [] =>
      match txt with
      | none => indentChars d ++ '<' :: (t.data ++ printAttrsChars a ++ '/' :: '>' :: ['\n'])
      | some s =>
        indentChars d ++ '<' :: (t.data ++ printAttrsChars a ++
          '>' :: (s.data ++ '<' :: '/' :: (t.data ++ '>' :: ['\n'])))
    | _ :: _ =>
      let txtPart : List Char := match txt with | none => [] | some s => s.data
      indentChars d ++ '<' :: (t.data ++ printAttrsChars a ++ '>' :: (txtPart ++ '\n' ::
        (printNodesChars (d + 1) cs ++ indentChars d ++ '<' :: '/' :: (t.data ++ '>' :: ['\n']))))

/-- Characters of a pretty-printed node list at depth `d`. -/
def printNodesChars : Nat → List Node → List Char
  | _, [] => []
  | d, c :: cs => printNodeChars d c ++ printNodesChars d cs

end

/-- Apostrophe character, built numerically. -/
def sq : Char := Char.ofNat 39

/-- The XML declaration emitted by lxml for `xml_declaration=True,
encoding='utf-8'`: a line reading `<?xml version='1.0' encoding='utf-8'?>`
(with single quotes) followed by a newline. -/
def declChars : List Char :=
  "<?xml version=".data ++ sq :: ("1.0".data ++ sq :: (" encoding=".data ++
    sq :: ("utf-8".data ++ sq :: "?>\n".data)))

/-- Model of `OVFCustomizer.xmlToString` (lines 141-144): declaration plus
the pretty-printed tree. -/
def xmlToString (xml : Node) : String := ⟨declChars ++ printNodeChars 0 xml⟩

/-! ### Parser: model of `OVFCustomizer.parseOvfXml` (lines 52-54)

`etree.parse(file, etree.XMLParser(remove_blank_text=True))`.  The model
parses the canonical serialized form produced by `xmlToString`: the
insignificant whitespace introduced by pretty-printing (newlines and
two-space indentation between element tags) is consumed structurally,
which is exactly what `remove_blank_text` discards, while text that is the
sole content of a leaf element is kept verbatim, as libxml2 keeps it.  A
leaf element with empty content (`<t></t>` or `<t/>`) parses to text
`none`, again as in lxml.  Input outside the canonical fragment is
rejected (`none`). -/

/-- Consume an expected literal prefix. -/
def expects : List Char → List Char → Option (List Char)
  | [], i => some i
  | a :: ps, b :: is => if a = b then expects ps is else none
  | _ :: _, [] => none

/-- Longest prefix of characters not satisfying `stop`, plus the rest. -/
def readUntil (stop : Char → Bool) : List Char → List Char × List Char
  | [] => ([], [])
  | c :: r =>
    if stop c then ([], c :: r)
    else
      let p := readUntil stop r
      (c :: p.1, p.2)

/-- Consume a comment body up to and including the closing `-->`. -/
def scanComment : List Char → Option (List Char × List Char)
  | '-' :: '-' :: '>' :: rest => some ([], rest)
  | c :: rest => (scanComment rest).map (fun p => (c :: p.1, p.2))
  | [] => none

/-- Parse a serialized attribute list: a sequence of ` name="value"` items,
ending at the first character that is not a blank. -/
def parseAttrs : Nat → List Char → Option (List (String × String) × List Char)
  | 0, _ => none
  | f + 1, input =>
    match input with
    | ' ' :: i2 =>
      let pn := readUntil (fun c => c == '=') i2
      if pn.1.isEmpty then none
      else
        match pn.2 with
        | '=' :: '"' :: i4 =>
          let pv := readUntil (fun c => c == '"') i4
          match pv.2 with
          | '"' :: i6 =>
            match parseAttrs f i6 with
            | none => none
            | some (as, i7) => some ((⟨pn.1⟩, ⟨pv.1⟩) :: as, i7)
          | _ => none
        | _ => none
    | _ => some ([], input)

mutual

/-- Parse one pretty-printed node at depth `d` (fuelled; the fuel is an
upper bound on the number of nodes, not on characters). -/
def parseNode : Nat → Nat → List Char → Option (Node × List Char)
  | 0, _, _ => none
  | f + 1, d, input =>
    match expects (indentChars d) input with
    | none => none
    | some i1 =>
      match i1 with
      | '<' :: '!' :: '-' :: '-' :: i2 =>
        match scanComment i2 with
        | none => none
        | some (t, i3) =>
          match i3 with
          | '\n' :: rest => some (Node.comment ⟨t⟩, rest)
          | _ => none
      | '<' :: i2 =>
        let pt := readUntil (fun c => c == ' ' || c == '/' || c == '>') i2
        if pt.1.isEmpty then none
        else
          match parseAttrs (f + 1) pt.2 with
          | none => none
          | some (attrs, i4) =>
            match i4 with
            | '/' :: '>' :: '\n' :: rest => some (Node.elem ⟨pt.1⟩ attrs none [], rest)
            | '>' :: '\n' :: irest =>
              match parseChildren f d pt.1 irest with
              | none => none
              | some (cs, rest) => some (Node.elem ⟨pt.1⟩ attrs none cs, rest)
            | '>' :: irest =>
              let px := readUntil (fun c => c == '<') irest
              match expects ('<' :: '/' :: (pt.1 ++ ['>', '\n'])) px.2 with
              | none => none
              | some rest =>
                some (Node.elem ⟨pt.1⟩ attrs
                  (if px.1.isEmpty then none else some ⟨px.1⟩) [], rest)
            | _ => none
      | _ => none

/-- Parse the children of an element whose opening tag at depth `d` has
been consumed, up to and including the element's closing-tag line. -/
def parseChildren : Nat → Nat → List Char → List Char → Option (List Node × List Char)
  | 0, _, _, _ => none
  | f + 1, d, tagC, input =>
    match expects (indentChars d ++ '<' :: '/' :: (tagC ++ ['>', '\n'])) input with
    | some rest => some ([], rest)
    | none =>
      match parseNode f (d + 1) input with
      | none => none
      | some (n, i2) =>
        match parseChildren f d tagC i2 with
        | none => none
        | some (ns, i3) => some (n :: ns, i3)

end

/-- Model of `OVFCustomizer.parseOvfXml` (lines 52-54) on a file content
string: XML declaration, then exactly one root element and nothing after
it. -/
def parseOvfXml (content : String) : Option Node :=
  match expects declChars content.data with
  | none => none
  | some i1 =>
    match parseNode (i1.length + 1) 0 i1 with
    | some (n, []) => some n
    | _ => none

/-! ### The well-formed fragment

Strings on which lxml's serialization is the exact inverse of parsing with
`remove_blank_text`: names without structural characters, non-empty text
that does not start a new line, comments without dashes, no mixed content.
On this fragment `xmlToString` and `parseOvfXml` round-trip, which is the
content of the theorems below. -/

/-- Characters allowed in a modelled tag or attribute name. -/
def plainNameChar (c : Char) : Bool :=
  ! ([' ', '\t', '\n', '\r', '<', '>', '/', '=', '"', '!', '?'].contains c)

/-- A usable tag or attribute name: non-empty, no structural characters. -/
def plainName (s : String) : Bool :=
  ! s.data.isEmpty && s.data.all plainNameChar

/-- An attribute value the serializer emits verbatim. -/
def plainAttrVal (s : String) : Bool :=
  s.data.all (fun c => ! (['"', '<', '\n', '\r'].contains c))

/-- A text value that round-trips: non-empty, not starting with a newline,
no markup characters. -/
def plainText (s : String) : Bool :=
  ! s.data.isEmpty &&
  (match s.data with
   | c :: _ => c != '\n'
   | [] => true) &&
  s.data.all (fun c => ! (['<', '\r'].contains c))

/-- A comment body that round-trips (conservatively: no dashes). -/
def plainComment (s : String) : Bool :=
  s.data.all (fun c => ! (['-', '\r'].contains c))

mutual

/-- The document fragment on which serialization is invertible. -/
def wfNode : Node → Bool
  | Node.comment t => plainComment t
  | Node.elem t attrs txt cs =>
    plainName t &&
    attrs.all (fun kv => plainName kv.1 && plainAttrVal kv.2) &&
    (match txt, cs with
     | none, _ => true
     | some s, [] => plainText s
     | some _, _ :: _ => false) &&
    wfNodes cs

/-- `wfNode` for every node of a list. -/
def wfNodes : List Node → Bool
  | [] => true
  | c :: cs => wfNode c && wfNodes cs

end

mutual

/-- Node count of a tree plus an allowance per element for its attribute
list; an upper bound on the parsing fuel a serialized tree needs. -/
def nsize : Node → Nat
  | Node.comment _ => 1
  | Node.elem _ a _ cs => 2 + a.length + nsizeL cs

/-- Sum of `nsize` over a list. -/
def nsizeL : List Node → Nat
  | [] => 0
  | c :: cs => nsize c + nsizeL cs

end

/-! ### Filesystem and path helpers -/

/-- The filesystem: a partial map from path strings to text contents. -/
def FS := String → Option String

/-- Model of `open(p, "w").write(c)`. -/
def writeFile (fs : FS) (p c : String) : FS :=
  fun q => if q = p then some c else fs q

/-- Model of Python `line.startswith(pre)`. -/
def pyStartsWith (line pre : String) : Bool := pre.data.isPrefixOf line.data

/-- Index of the last occurrence of `c`, the model of `str.rfind`. -/
def rfindIdx (c : Char) : List Char → Option Nat
  | [] => none
  | a :: as =>
    match rfindIdx c as with
    | some i => some (i + 1)
    | none => if a = c then some 0 else none

/-- Model of `os.path.basename` (posix): everything after the last slash. -/
def basename (p : String) : String :=
  match rfindIdx '/' p.data with
  | none => p
  | some i => ⟨p.data.drop (i + 1)⟩

/-- Drop trailing occurrences of a character, the model of `str.rstrip`. -/
def rstripChar (c : Char) (l : List Char) : List Char :=
  (l.reverse.dropWhile (fun x => x = c)).reverse

/-- Model of `os.path.dirname` (posix): everything up to the last slash,
with trailing slashes stripped unless the result is all slashes. -/
def dirname (p : String) : String :=
  match rfindIdx '/' p.data with
  | none => ""
  | some i =>
    let head := p.data.take (i + 1)
    if head.all (fun x => x = '/') then ⟨head⟩ else ⟨rstripChar '/' head⟩

/-- Model of the two-argument `os.path.join` (posix). -/
def joinPath (a b : String) : String :=
  if pyStartsWith b "/" then b
  else if a = "" then b
  else if a.data.getLast? = some '/' then a ++ b
  else a ++ "/" ++ b

/-- Model of `os.path.splitext` (posix): split off the last extension of the
final path component, treating leading dots of the component as part of the
root (so `.bashrc` has no extension). -/
def splitext (p : String) : String × String :=
  let cs := p.data
  match rfindIdx '.' cs with
  | none => (p, "")
  | some d =>
    let start : Nat :=
      match rfindIdx '/' cs with
      | none => 0
      | some s => s + 1
    if (match rfindIdx '/' cs with
        | none => true
        | some s => decide (s < d)) then
      if ((cs.drop start).take (d - start)).any (fun c => decide (c ≠ '.')) then
        (⟨cs.take d⟩, ⟨cs.drop d⟩)
      else (p, "")
    else (p, "")

/-- Model of `OVFCustomizer.mfFilename` (lines 158-160):
`'%s.mf' % splitext(ovfFilename)[0]`. -/
def mfFilename (ovfFilename : String) : String := (splitext ovfFilename).1 ++ ".mf"

/-- Path of the descriptor file, `join(self.ovfDir, self.ovfFilename)`. -/
def descriptorPath (st : OVFCustomizer) : String := joinPath st.ovfDir st.ovfFilename

/-- Path of the manifest sidecar,
`join(self.ovfDir, self.mfFilename(self.ovfFilename))` (lines 80-82). -/
def manifestPath (st : OVFCustomizer) : String :=
  joinPath st.ovfDir (mfFilename st.ovfFilename)

/-- Split into lines keeping the terminating newline of each line, the model
of `file.readlines()` (manifests are newline-terminated text). -/
def rlAux : List Char → List Char → List (List Char)
  | [], [] => []
  | [], acc => [acc.reverse]
  | '\n' :: rest, acc => ('\n' :: acc).reverse :: rlAux rest []
  | c :: rest, acc => rlAux rest (c :: acc)

/-- Model of `file.readlines()` applied to a whole file content string. -/
def readlinesPy (s : String) : List String := (rlAux s.data []).map (fun l => ⟨l⟩)

/-- The loop body of `OVFCustomizer.commitManifest` (lines 83-91): a line
starting with `SHA1(<descriptor>)=` is replaced by a fresh SHA-1 line, a
line starting with `SHA256(<descriptor>)=` by a fresh SHA-256 line, and any
other line is written back unchanged. -/
def commitManifestLine (ovfFilename : String) (sha1 sha256 : String → String)
    (ovfString : String) (line : String) : String :=
  if pyStartsWith line ("SHA1(" ++ ovfFilename ++ ")=") then
    "SHA1(" ++ ovfFilename ++ ")= " ++ sha1 ovfString ++ "\n"
  else if pyStartsWith line ("SHA256(" ++ ovfFilename ++ ")=") then
    "SHA256(" ++ ovfFilename ++ ")= " ++ sha256 ovfString ++ "\n"
  else line

/-- Model of `OVFCustomizer.commitManifest` (lines 79-91): read the manifest
sidecar (a missing file raises, modelled by `none`), rewrite it line by
line and write the result back to the same path. -/
def commitManifest (sha1 sha256 : String → String) (st : OVFCustomizer)
    (ovfString : String) (fs : FS) : Option FS :=
  match fs (manifestPath st) with
  | none => none
  | some content =>
    some (writeFile fs (manifestPath st)
      (String.join ((readlinesPy content).map
        (commitManifestLine st.ovfFilename sha1 sha256 ovfString))))

/-- Model of `OVFCustomizer.commitOvf` (lines 75-77): overwrite the
descriptor file with the serialized document. -/
def commitOvf (st : OVFCustomizer) (ovfString : String) (fs : FS) : FS :=
  writeFile fs (descriptorPath st) ovfString

/-- Error raised by `commit` when the manifest sidecar does not exist. -/
inductive CommitErr where
  | manifestNotFound
deriving DecidableEq

/-- Model of `OVFCustomizer.commit` (lines 93-97): serialize the in-memory
document, overwrite the descriptor file, then rewrite the manifest.  When
the manifest is missing the error escapes *after* the descriptor write, so
the partially updated filesystem is returned next to the error. -/
def commit (sha1 sha256 : String → String) (st : OVFCustomizer) (fs : FS) :
    FS × Option CommitErr :=
  let ovfString := xmlToString st.ovfXml
  let fs1 := commitOvf st ovfString fs
  match commitManifest sha1 sha256 st ovfString fs1 with
  | some fs2 => (fs2, none)
  | none => (fs1, some CommitErr.manifestNotFound)

/-- Full construction of an `OVFCustomizer` (lines 35-50): split the given
path, read the descriptor file (`none` models the raised error when it is
missing or unparseable), parse it, and resolve the four anchors.  `nm` is
the prefix-to-URI map captured from the root element's namespace
declarations (`root.nsmap`, line 40-41), supplied as a parameter because
the modelled tree stores names already in Clark notation.  Construction
performs no filesystem writes: the only filesystem access is the single
read visible here. -/
def load (nm : List (String × String)) (ovfPath : String) (fs : FS) : Option OVFCustomizer :=
  let d := dirname ovfPath
  let f := basename ovfPath
  match fs (joinPath d f) with
  | none => none
  | some content =>
    match parseOvfXml content with
    | none => none
    | some doc => loadDoc d f nm doc

/-! ### Diff reporter: model of `OVFCustomizer.ovfDiff` (lines 67-73) -/

/-- Accumulator step of Python `str.splitlines` restricted to the line
boundaries that arise here (`\n`, `\r\n`, `\r`), without keeping ends. -/
def slAux : List Char → List Char → List (List Char)
  | [], [] => []
  | [], acc => [acc.reverse]
  | '\n' :: rest, acc => acc.reverse :: slAux rest []
  | '\r' :: '\n' :: rest, acc => acc.reverse :: slAux rest []
  | '\r' :: rest, acc => acc.reverse :: slAux rest []
  | c :: rest, acc => slAux rest (c :: acc)

/-- Model of Python `str.splitlines()`. -/
def splitlinesPy (s : String) : List String := (slAux s.data []).map (fun l => ⟨l⟩)

/-- Join a line list with `'\n'` separators, the model of
`'\n'.join(lines)`. -/
def pyJoinNL : List String → String
  | [] => ""
  | [x] => x
  | x :: xs => x ++ "\n" ++ pyJoinNL xs

/-- Rebuild a character stream from split lines, appending a newline after
each line; the inverse of `slAux` on newline-terminated, CR-free input. -/
def joinNL : List (List Char) → List Char
  | [] => []
  | l :: ls => l ++ '\n' :: joinNL ls

/-- Model of `difflib.unified_diff` at the granularity the tool observes:
for equal inputs it yields nothing at all (no headers, no hunks), and for
different inputs it yields the two file headers followed by change lines;
the exact hunk arithmetic of difflib is abstracted, its emptiness contract
is kept. -/
def unifiedDiff (a b : List String) : List String :=
  if a = b then []
  else "--- " :: "+++ " :: (a.map (fun l => "-" ++ l) ++ b.map (fun l => "+" ++ l))

/-- Model of `OVFCustomizer.ovfDiff` (lines 67-73): re-parse the descriptor
currently on disk, serialize it and the in-memory document through the same
canonical serializer, and join the unified diff of their line lists.  The
filesystem is only read, never written (`none` models the raised error when
the on-disk descriptor is missing or unparseable). -/
def ovfDiff (st : OVFCustomizer) (fs : FS) : Option String :=
  match fs (descriptorPath st) with
  | none => none
  | some content =>
    match parseOvfXml content with
    | none => none
    | some doc =>
      some (pyJoinNL
        (unifiedDiff (splitlinesPy (xmlToString doc)) (splitlinesPy (xmlToString st.ovfXml))))

/-! ### Mutators (lines 102-139) -/

/-- Model of `OVFCustomizer.xpathRemove` (lines 63-65) for the single-step
child queries the tool passes to it: every matching child of the given
element is removed from its parent. -/
def xpathRemove (nm : List (String × String)) (s : Step) : Node → Node
  | Node.elem t a x cs => Node.elem t a x (cs.filter (fun c => ! matchesStep nm s c))
  | n => n

/-- Append a child, the model of `etree.SubElement` / `element.append`. -/
def appendChild (n c : Node) : Node :=
  match n with
  | Node.elem t a x cs => Node.elem t a x (cs ++ [c])
  | other => other

/-- Model of `OVFCustomizer.setProductProperty` (lines 102-115): under the
ProductSection anchor, remove every `ovf:Property` child whose `ovf:key`
equals `key`, then append a fresh property element carrying the four
namespace-qualified attributes, with an optional comment child echoing the
value. -/
def setProductProperty (st : OVFCustomizer) (key value type : String)
    (userConfigurable withComment : Bool) : OVFCustomizer :=
  { st with ovfXml := modifyAt st.productSection (fun ps =>
      let ps1 := xpathRemove st.nsMap ⟨"ovf", "Property", some ("ovf", "key", key)⟩ ps
      let prop : Node := Node.elem (nsName st.nsMap "ovf" "Property")
        [(nsName st.nsMap "ovf" "key", key),
         (nsName st.nsMap "ovf" "value", value),
         (nsName st.nsMap "ovf" "type", type),
         (nsName st.nsMap "ovf" "userConfigurable", if userConfigurable then "true" else "false")]
        none
        (if withComment then [Node.comment ("value=" ++ value)] else [])
      appendChild ps1 prop) st.ovfXml }

/-- Model of `OVFCustomizer.setExtraConfig` (lines 117-126): under the
VirtualHardwareSection anchor, remove every `vmw:ExtraConfig` child with
the same `vmw:key`, then append a fresh entry. -/
def setExtraConfig (st : OVFCustomizer) (key value : String) (required : Bool) :
    OVFCustomizer :=
  { st with ovfXml := modifyAt st.vhwSection (fun vhw =>
      let vhw1 := xpathRemove st.nsMap ⟨"vmw", "ExtraConfig", some ("vmw", "key", key)⟩ vhw
      let prop : Node := Node.elem (nsName st.nsMap "vmw" "ExtraConfig")
        [(nsName st.nsMap "vmw" "key", key),
         (nsName st.nsMap "vmw" "value", value),
         (nsName st.nsMap "ovf" "required", if required then "true" else "false")]
        none []
      appendChild vhw1 prop) st.ovfXml }

/-- Model of `OVFCustomizer.setAnnotation` (lines 128-132): under the
AnnotationSection anchor, remove every `ovf:Annotation` child and append a
fresh one whose text is the given value. -/
def setAnnotation (st : OVFCustomizer) (value : String) : OVFCustomizer :=
  { st with ovfXml := modifyAt st.annoSection (fun anno =>
      let anno1 := xpathRemove st.nsMap (ovfStep "Annotation") anno
      let prop : Node := Node.elem (nsName st.nsMap "ovf" "Annotation") [] (some value) []
      appendChild anno1 prop) st.ovfXml }

/-- Overwrite the text of an element, the model of `element.text = v`. -/
def setNodeText (v : String) : Node → Node
  | Node.elem t a _ cs => Node.elem t a (some v) cs
  | Node.comment t => Node.comment t

/-- Overwrite the text of the `i`-th child of an element. -/
def setChildText (i : Nat) (v : String) (n : Node) : Node :=
  match n with
  | Node.elem t a x cs => Node.elem t a x (modifyIdx (setNodeText v) i cs)
  | other => other

/-- Error raised by `setVersion`/`setProduct` when a required child is
absent (Python `IndexError` from `xpath(...)[0]`). -/
inductive MutErr where
  | indexError
deriving DecidableEq

/-- Model of `OVFCustomizer.setVersion` (lines 134-136): two sequential
statements, each setting the text of the first matching child of the
ProductSection anchor.  A failing lookup raises; crucially, a failure of
the second statement leaves the mutation already performed by the first in
place, which the returned state reflects. -/
def setVersion (st : OVFCustomizer) (version : String) : OVFCustomizer × Option MutErr :=
  match getAt st.productSection st.ovfXml with
  | none => (st, some MutErr.indexError)
  | some ps =>
    match (matchIdxs st.nsMap (ovfStep "Version") (children ps)).head? with
    | none => (st, some MutErr.indexError)
    | some i =>
      let st1 : OVFCustomizer :=
        { st with ovfXml := modifyAt st.productSection (setChildText i version) st.ovfXml }
      let ps1 := setChildText i version ps
      match (matchIdxs st.nsMap (ovfStep "FullVersion") (children ps1)).head? with
      | none => (st1, some MutErr.indexError)
      | some j =>
        ({ st1 with ovfXml := modifyAt st.productSection (setChildText j version) st1.ovfXml },
         none)

/-- Model of `OVFCustomizer.setProduct` (lines 138-139): set the text of the
first `ovf:Product` child of the ProductSection anchor. -/
def setProduct (st : OVFCustomizer) (value : String) : OVFCustomizer × Option MutErr :=
  match getAt st.productSection st.ovfXml with
  | none => (st, some MutErr.indexError)
  | some ps =>
    match (matchIdxs st.nsMap (ovfStep "Product") (children ps)).head? with
    | none => (st, some MutErr.indexError)
    | some i =>
      ({ st with ovfXml := modifyAt st.productSection (setChildText i value) st.ovfXml }, none)

/-- Text of the first child of `n` matching the `ovf` name `loc`: the
observable read `self.xpath('ovf:' + loc, root)[0].text`. -/
def firstChildText (nm : List (String × String)) (loc : String) (n : Node) :
    Option (Option String) :=
  match (matchIdxs nm (ovfStep loc) (children n)).head? with
  | none => none
  | some i =>
    match (children n).get? i with
    | some c => some (textOf c)
    | none => none

/-- Observable `self.xpath('ovf:Version', root=productSection)[0].text`. -/
def versionText (st : OVFCustomizer) : Option (Option String) :=
  match getAt st.productSection st.ovfXml with
  | none => none
  | some ps => firstChildText st.nsMap "Version" ps

/-- Observable `self.xpath('ovf:FullVersion', root=productSection)[0].text`. -/
def fullVersionText (st : OVFCustomizer) : Option (Option String) :=
  match getAt st.productSection st.ovfXml with
  | none => none
  | some ps => firstChildText st.nsMap "FullVersion" ps

/-- Observable `self.xpath('ovf:Product', root=productSection)[0].text`. -/
def productText (st : OVFCustomizer) : Option (Option String) :=
  match getAt st.productSection st.ovfXml with
  | none => none
  | some ps => firstChildText st.nsMap "Product" ps

/-- Observable text of the first `ovf:Annotation` child of the annotation
anchor. -/
def annotationText (st : OVFCustomizer) : Option (Option String) :=
  match getAt st.annoSection st.ovfXml with
  | none => none
  | some anno => firstChildText st.nsMap "Annotation" anno

/-- The node test `ovf:Property[@ovf:key="<key>"]` used by
`setProductProperty` (lines 104-105): an `ovf:Property` element whose
`ovf:key` attribute equals `key`. -/
def isPropertyWithKey (nm : List (String × String)) (key : String) (c : Node) : Bool :=
  matchesStep nm ⟨"ovf", "Property", some ("ovf", "key", key)⟩ c

/-! ### Concrete fixtures used by witnesses and counterexamples -/

/-- A concrete hash stand-in. -/
def sha1W : String → String := fun _ => "new1"

/-- A concrete hash stand-in. -/
def sha2W : String → String := fun _ => "new2"

/-- A concrete namespace map (toy URIs, which keeps the Clark-notation tags
inside the modelled serializer's plain-name fragment). -/
def nmW : List (String × String) := [("ovf", "ovfuri"), ("vmw", "vmwuri")]

/-- A concrete well-formed OVF descriptor document with all four anchors. -/
def docW : Node :=
  Node.elem "\x7bovfuri\x7dEnvelope" [] none
    [Node.elem "\x7bovfuri\x7dReferences" [] none
      [Node.elem "\x7bovfuri\x7dFile" [("\x7bovfuri\x7dhref", "disk.vmdk")] none []],
     Node.elem "\x7bovfuri\x7dVirtualSystem" [] none
      [Node.elem "\x7bovfuri\x7dProductSection" [] none
        [Node.elem "\x7bovfuri\x7dProduct" [] (some "p") [],
         Node.elem "\x7bovfuri\x7dVersion" [] (some "1") [],
         Node.elem "\x7bovfuri\x7dFullVersion" [] (some "1") []],
       Node.elem "\x7bovfuri\x7dVirtualHardwareSection" [] none [],
       Node.elem "\x7bovfuri\x7dAnnotationSection" [] none
        [Node.elem "\x7bovfuri\x7dAnnotation" [] (some "hello") []]]]

/-- The customizer state obtained by loading `docW` as `x.ovf` in the
current directory (anchor paths as resolved by `loadDoc`). -/
def stD : OVFCustomizer := ⟨"", "x.ovf", nmW, docW, [1, 0], [1, 1], [1, 2], [0, 0]⟩

/-- A concrete manifest with two descriptor lines and an unrelated line. -/
def mfW : String := "SHA1(x.ovf)=old1\nSHA256(x.ovf)=old2\nSHA256(disk.vmdk)=keep\n"

/-- Filesystem holding only the manifest. -/
def fsW : FS := fun p => if p = "x.mf" then some mfW else none

/-- Filesystem holding descriptor and manifest. -/
def fsDM : FS := fun p =>
  if p = "x.ovf" then some (xmlToString docW)
  else if p = "x.mf" then some mfW else none

/-- Filesystem holding the descriptor but no manifest. -/
def fsD : FS := fun p => if p = "x.ovf" then some (xmlToString docW) else none

/-- A descriptor whose ProductSection has a Version child but no
FullVersion child. -/
def doc4 : Node :=
  Node.elem "\x7bovfuri\x7dEnvelope" [] none
    [Node.elem "\x7bovfuri\x7dReferences" [] none
      [Node.elem "\x7bovfuri\x7dFile" [("\x7bovfuri\x7dhref", "disk.vmdk")] none []],
     Node.elem "\x7bovfuri\x7dVirtualSystem" [] none
      [Node.elem "\x7bovfuri\x7dProductSection" [] none
        [Node.elem "\x7bovfuri\x7dVersion" [] (some "1") []],
       Node.elem "\x7bovfuri\x7dVirtualHardwareSection" [] none [],
       Node.elem "\x7bovfuri\x7dAnnotationSection" [] none []]]

/-- The customizer state loaded from `doc4`. -/
def st4 : OVFCustomizer := ⟨"", "x.ovf", nmW, doc4, [1, 0], [1, 1], [1, 2], [0, 0]⟩

/-- A descriptor carrying two ProductSection children. -/
def doc3 : Node :=
  Node.elem "\x7bovfuri\x7dEnvelope" [] none
    [Node.elem "\x7bovfuri\x7dReferences" [] none
      [Node.elem "\x7bovfuri\x7dFile" [("\x7bovfuri\x7dhref", "disk.vmdk")] none []],
     Node.elem "\x7bovfuri\x7dVirtualSystem" [] none
      [Node.elem "\x7bovfuri\x7dProductSection" [] none
        [Node.elem "\x7bovfuri\x7dVersion" [] (some "1") []],
       Node.elem "\x7bovfuri\x7dProductSection" [] none
        [Node.elem "\x7bovfuri\x7dVersion" [] (some "2") []],
       Node.elem "\x7bovfuri\x7dVirtualHardwareSection" [] none [],
       Node.elem "\x7bovfuri\x7dAnnotationSection" [] none []]]

/-- Filesystem holding `doc3` serialized as the descriptor `x.ovf`. -/
def fs3 : FS := fun p => if p = "x.ovf" then some (xmlToString doc3) else none

/-! ### Helper lemmas: tree navigation -/

theorem modifyIdx_get?_ne (f : α → α) (i j : Nat) (l : List α) (h : j ≠ i) :
    (modifyIdx f i l).get? j = l.get? j := by
  induction l generalizing i j with
  | nil => simp [modifyIdx]
  | cons a as ih =>
    cases i with
    | zero =>
      cases j with
      | zero => exact absurd rfl h
      | succ j2 => simp [modifyIdx]
    | succ i2 =>
      cases j with
      | zero => simp [modifyIdx]
      | succ j2 =>
        simp only [modifyIdx, List.get?]
        exact ih i2 j2 (fun hc => h (by rw [hc]))

theorem modifyIdx_get?_self (f : α → α) (i : Nat) (l : List α) :
    (modifyIdx f i l).get? i = (l.get? i).map f := by
  induction l generalizing i with
  | nil => simp [modifyIdx]
  | cons a as ih =>
    cases i with
    | zero => simp [modifyIdx]
    | succ i2 => simpa [modifyIdx] using ih i2

theorem getAt_modifyAt_disjoint (p q : Path) (f : Node → Node) (n : Node)
    (h : PathDisjoint p q) : getAt q (modifyAt p f n) = getAt q n := by
  induction p generalizing q n with
  | nil => exact absurd (List.nil_prefix) h.1
  | cons i p2 ih =>
    cases q with
    | nil => exact absurd (List.nil_prefix) h.2
    | cons j q2 =>
      cases n with
      | comment t => simp [modifyAt]
      | elem t a x cs =>
        by_cases hij : j = i
        · subst hij
          have hpq : PathDisjoint p2 q2 := by
            constructor
            · intro hc
              exact h.1 (List.cons_prefix_cons.mpr ⟨rfl, hc⟩)
            · intro hc
              exact h.2 (List.cons_prefix_cons.mpr ⟨rfl, hc⟩)
          simp only [modifyAt, getAt, modifyIdx_get?_self]
          cases hc : cs.get? j with
          | none => rfl
          | some c => simpa using ih q2 c hpq
        · simp only [modifyAt, getAt]
          rw [modifyIdx_get?_ne _ _ _ _ hij]

theorem getAt_modifyAt_self (p : Path) (f : Node → Node) (n x : Node)
    (h : getAt p n = some x) : getAt p (modifyAt p f n) = some (f x) := by
  induction p generalizing n with
  | nil =>
    simp only [getAt, Option.some.injEq] at h
    simp [getAt, modifyAt, h]
  | cons i p2 ih =>
    cases n with
    | comment t => simp [getAt] at h
    | elem t a x2 cs =>
      simp only [getAt] at h
      cases hc : cs.get? i with
      | none => rw [hc] at h; exact absurd h (by simp)
      | some c =>
        rw [hc] at h
        simp only [modifyAt, getAt, modifyIdx_get?_self, hc, Option.map_some]
        exact ih c h

/-! ### Helper lemmas: queries -/

theorem mem_matchIdxs (nm : List (String × String)) (s : Step) (cs : List Node) (i : Nat)
    (h : i ∈ matchIdxs nm s cs) :
    ∃ c, cs.get? i = some c ∧ matchesStep nm s c = true := by
  induction cs generalizing i with
  | nil => simp [matchIdxs] at h
  | cons c cs2 ih =>
    by_cases hm : matchesStep nm s c
    · rw [matchIdxs, if_pos hm, List.mem_cons] at h
      rcases h with h0 | hmem
      · subst h0; exact ⟨c, rfl, hm⟩
      · rw [List.mem_map] at hmem
        obtain ⟨j, hj, hji⟩ := hmem
        subst hji
        obtain ⟨c2, hc2, hmc2⟩ := ih j hj
        exact ⟨c2, by simpa using hc2, hmc2⟩
    · rw [matchIdxs, if_neg hm, List.mem_map] at h
      obtain ⟨j, hj, hji⟩ := h
      subst hji
      obtain ⟨c2, hc2, hmc2⟩ := ih j hj
      exact ⟨c2, by simpa using hc2, hmc2⟩

theorem mem_anchorQuery (nm : List (String × String)) (s1 s2 s3 : Step) (root : Node)
    (p : Path) (h : p ∈ anchorQuery nm s1 s2 s3 root) :
    ∃ i j c1 c2, p = [i, j] ∧ (children root).get? i = some c1 ∧
      matchesStep nm s2 c1 = true ∧ (children c1).get? j = some c2 ∧
      matchesStep nm s3 c2 = true := by
  by_cases hr : matchesStep nm s1 root
  · simp only [anchorQuery, hr, if_true, List.mem_flatMap] at h
    obtain ⟨i, hi, hp⟩ := h
    obtain ⟨c1, hc1, hm1⟩ := mem_matchIdxs nm s2 (children root) i hi
    rw [show childAt root i = some c1 from by simpa [childAt] using hc1] at hp
    simp only [List.mem_map] at hp
    obtain ⟨j, hj, hpij⟩ := hp
    obtain ⟨c2, hc2, hm2⟩ := mem_matchIdxs nm s3 (children c1) j hj
    exact ⟨i, j, c1, c2, hpij.symm, hc1, hm1, hc2, hm2⟩
  · simp [anchorQuery, hr] at h

/-! ### Helper lemmas: strings and qualified names -/

theorem sdata_append (a b : String) : (a ++ b).data = a.data ++ b.data := by
  cases a; cases b; rfl

theorem slength_append (a b : String) : (a ++ b).length = a.length + b.length := by
  cases a with | mk la =>
  cases b with | mk lb =>
  exact List.length_append la lb

theorem nsName_length (nm : List (String × String)) (ns name : String) :
    (nsName nm ns name).length = (nsLookup nm ns).length + name.length + 2 := by
  rw [nsName, slength_append, slength_append, slength_append]
  have h1 : ("\x7b" : String).length = 1 := rfl
  have h2 : ("\x7d" : String).length = 1 := rfl
  omega

theorem nsName_ne_of_length (nm : List (String × String)) (ns : String) (a b : String)
    (h : a.length ≠ b.length) : nsName nm ns a ≠ nsName nm ns b := by
  intro hc
  have := congrArg String.length hc
  rw [nsName_length, nsName_length] at this
  omega

theorem matchesStep_setNodeText (nm : List (String × String)) (s : Step) (v : String)
    (c : Node) : matchesStep nm s (setNodeText v c) = matchesStep nm s c := by
  cases c <;> rfl

theorem matchIdxs_setNodeText (nm : List (String × String)) (s : Step) (v : String)
    (i : Nat) (cs : List Node) :
    matchIdxs nm s (modifyIdx (setNodeText v) i cs) = matchIdxs nm s cs := by
  induction cs generalizing i with
  | nil => simp [modifyIdx]
  | cons c cs2 ih =>
    cases i with
    | zero => simp [modifyIdx, matchIdxs, matchesStep_setNodeText]
    | succ i2 => simp [modifyIdx, matchIdxs, ih i2]

/-! ### C1: manifest rewriting -/

theorem sha_prefixes_exclusive (line fn : String)
    (h2 : pyStartsWith line ("SHA256(" ++ fn ++ ")=") = true) :
    pyStartsWith line ("SHA1(" ++ fn ++ ")=") = false := by
  cases hb : pyStartsWith line ("SHA1(" ++ fn ++ ")=") with
  | false => rfl
  | true =>
    exfalso
    rw [pyStartsWith, List.isPrefixOf_iff_prefix] at hb h2
    obtain ⟨t1, ht1⟩ := hb
    obtain ⟨t2, ht2⟩ := h2
    have e1 : line.data.get? 3 = some '1' := by
      rw [← ht1]
      have hd : ("SHA1(" ++ fn ++ ")=").data =
          'S' :: 'H' :: 'A' :: '1' :: '(' :: (fn.data ++ [')', '=']) := by
        simp [sdata_append]
      rw [hd]
      rfl
    have e2 : line.data.get? 3 = some '2' := by
      rw [← ht2]
      have hd : ("SHA256(" ++ fn ++ ")=").data =
          'S' :: 'H' :: 'A' :: '2' :: '5' :: '6' :: '(' :: (fn.data ++ [')', '=']) := by
        simp [sdata_append]
      rw [hd]
      rfl
    exact absurd (e1.symm.trans e2) (by decide)

/-- C1: on commit, the manifest is rewritten line by line in original order:
a line whose prefix is `SHA1(<descriptor>)=` becomes a fresh SHA-1 line and
one whose prefix is `SHA256(<descriptor>)=` becomes a fresh SHA-256 line
(algorithm label and filename preserved in both), while every line matching
neither prefix is written back byte-for-byte in its original position. -/
theorem commitManifest_rewrites_matching_lines_only
    (sha1 sha256 : String → String) (st : OVFCustomizer) (ovfString content : String)
    (fs : FS) (hmf : fs (manifestPath st) = some content) :
    commitManifest sha1 sha256 st ovfString fs =
      some (writeFile fs (manifestPath st)
        (String.join ((readlinesPy content).map
          (commitManifestLine st.ovfFilename sha1 sha256 ovfString)))) ∧
    (∀ i : Nat, ((readlinesPy content).map
        (commitManifestLine st.ovfFilename sha1 sha256 ovfString)).get? i =
      ((readlinesPy content).get? i).map
        (commitManifestLine st.ovfFilename sha1 sha256 ovfString)) ∧
    (∀ line : String, pyStartsWith line ("SHA1(" ++ st.ovfFilename ++ ")=") = true →
      commitManifestLine st.ovfFilename sha1 sha256 ovfString line =
        "SHA1(" ++ st.ovfFilename ++ ")= " ++ sha1 ovfString ++ "\n") ∧
    (∀ line : String, pyStartsWith line ("SHA256(" ++ st.ovfFilename ++ ")=") = true →
      commitManifestLine st.ovfFilename sha1 sha256 ovfString line =
        "SHA256(" ++ st.ovfFilename ++ ")= " ++ sha256 ovfString ++ "\n") ∧
    (∀ line : String, pyStartsWith line ("SHA1(" ++ st.ovfFilename ++ ")=") = false →
      pyStartsWith line ("SHA256(" ++ st.ovfFilename ++ ")=") = false →
      commitManifestLine st.ovfFilename sha1 sha256 ovfString line = line) := by
  refine ⟨?_, ?_, ?_, ?_, ?_⟩
  · rw [commitManifest, hmf]
  · intro i
    exact List.get?_map _ _ _
  · intro line h1
    simp [commitManifestLine, h1]
  · intro line h2
    simp [commitManifestLine, sha_prefixes_exclusive line st.ovfFilename h2, h2]
  · intro line h1 h2
    simp [commitManifestLine, h1, h2]

set_option maxRecDepth 4000 in
/-- Witness for C1 on the claim's own example manifest: the two `x.ovf`
lines are rewritten, `SHA256(disk.vmdk)=keep` survives byte-for-byte. -/
theorem commitManifest_rewrites_matching_lines_only_witness :
    fsW (manifestPath stD) = some mfW ∧
    commitManifest sha1W sha2W stD "SER" fsW =
      some (writeFile fsW (manifestPath stD)
        (String.join ((readlinesPy mfW).map
          (commitManifestLine stD.ovfFilename sha1W sha2W "SER")))) ∧
    String.join ((readlinesPy mfW).map (commitManifestLine stD.ovfFilename sha1W sha2W "SER")) =
      "SHA1(x.ovf)= new1\nSHA256(x.ovf)= new2\nSHA256(disk.vmdk)=keep\n" :=
  ⟨by decide,
   (commitManifest_rewrites_matching_lines_only sha1W sha2W stD "SER" mfW fsW (by decide)).1,
   by decide⟩

/-! ### C2: setProductProperty replace-semantics -/

/-- C2: after any `setProductProperty(key, value, …)` call the
ProductSection holds exactly one `ovf:Property` child whose `ovf:key`
equals `key`, and that child's `ovf:value` attribute is the value of this
(most recent) call; since this holds after *every* call, a repeated call
with the same key — same or different value — still leaves exactly one such
node, carrying the latest value. -/
theorem setProductProperty_unique_latest_value
    (st : OVFCustomizer) (key value type : String) (uc wc : Bool)
    (t : String) (a : List (String × String)) (x : Option String) (cs : List Node)
    (h : getAt st.productSection st.ovfXml = some (Node.elem t a x cs)) :
    ∃ cs2,
      getAt st.productSection (setProductProperty st key value type uc wc).ovfXml =
        some (Node.elem t a x cs2) ∧
      List.countP (isPropertyWithKey st.nsMap key) cs2 = 1 ∧
      ∀ c ∈ cs2, isPropertyWithKey st.nsMap key c = true →
        attrGet (attrsOf c) (nsName st.nsMap "ovf" "value") = some value := by
  have hprop :
      isPropertyWithKey st.nsMap key (Node.elem (nsName st.nsMap "ovf" "Property")
        [(nsName st.nsMap "ovf" "key", key),
         (nsName st.nsMap "ovf" "value", value),
         (nsName st.nsMap "ovf" "type", type),
         (nsName st.nsMap "ovf" "userConfigurable", if uc then "true" else "false")]
        none
        (if wc then [Node.comment ("value=" ++ value)] else [])) = true := by
    simp [isPropertyWithKey, matchesStep, attrGet]
  have hstep := getAt_modifyAt_self st.productSection
    (fun ps =>
      appendChild (xpathRemove st.nsMap ⟨"ovf", "Property", some ("ovf", "key", key)⟩ ps)
        (Node.elem (nsName st.nsMap "ovf" "Property")
          [(nsName st.nsMap "ovf" "key", key),
           (nsName st.nsMap "ovf" "value", value),
           (nsName st.nsMap "ovf" "type", type),
           (nsName st.nsMap "ovf" "userConfigurable", if uc then "true" else "false")]
          none
          (if wc then [Node.comment ("value=" ++ value)] else [])))
    st.ovfXml (Node.elem t a x cs) h
  refine ⟨(cs.filter (fun c => ! isPropertyWithKey st.nsMap key c)) ++
    [Node.elem (nsName st.nsMap "ovf" "Property")
      [(nsName st.nsMap "ovf" "key", key),
       (nsName st.nsMap "ovf" "value", value),
       (nsName st.nsMap "ovf" "type", type),
       (nsName st.nsMap "ovf" "userConfigurable", if uc then "true" else "false")]
      none
      (if wc then [Node.comment ("value=" ++ value)] else [])], ?_, ?_, ?_⟩
  · rw [setProductProperty]
    exact hstep.trans (by simp [xpathRemove, appendChild, isPropertyWithKey])
  · rw [List.countP_append]
    have h0 : List.countP (isPropertyWithKey st.nsMap key)
        (cs.filter (fun c => ! isPropertyWithKey st.nsMap key c)) = 0 := by
      rw [List.countP_eq_zero]
      intro c hc
      have := (List.mem_filter.mp hc).2
      simp only [Bool.not_eq_true'] at this
      simp [this]
    rw [h0, List.countP_cons, List.countP_nil, hprop]
    simp
  · intro c hc hp
    rcases List.mem_append.mp hc with hmem | hmem
    · have := (List.mem_filter.mp hmem).2
      rw [hp] at this
      simp at this
    · have hcp : c = Node.elem (nsName st.nsMap "ovf" "Property")
          [(nsName st.nsMap "ovf" "key", key),
           (nsName st.nsMap "ovf" "value", value),
           (nsName st.nsMap "ovf" "type", type),
           (nsName st.nsMap "ovf" "userConfigurable", if uc then "true" else "false")]
          none
          (if wc then [Node.comment ("value=" ++ value)] else []) := by
        simpa using hmem
      subst hcp
      have hne : nsName st.nsMap "ovf" "value" ≠ nsName st.nsMap "ovf" "key" :=
        nsName_ne_of_length st.nsMap "ovf" "value" "key" (by decide)
      simp [attrsOf, attrGet, hne]

/-- Witness for C2 at a concrete loaded document and key. -/
theorem setProductProperty_unique_latest_value_witness :
    getAt stD.productSection stD.ovfXml = some (Node.elem "\x7bovfuri\x7dProductSection" [] none
      [Node.elem "\x7bovfuri\x7dProduct" [] (some "p") [],
       Node.elem "\x7bovfuri\x7dVersion" [] (some "1") [],
       Node.elem "\x7bovfuri\x7dFullVersion" [] (some "1") []]) ∧
    (∃ cs2,
      getAt stD.productSection (setProductProperty stD "appPort" "443" "string" false false).ovfXml =
        some (Node.elem "\x7bovfuri\x7dProductSection" [] none cs2) ∧
      List.countP (isPropertyWithKey stD.nsMap "appPort") cs2 = 1 ∧
      ∀ c ∈ cs2, isPropertyWithKey stD.nsMap "appPort" c = true →
        attrGet (attrsOf c) (nsName stD.nsMap "ovf" "value") = some "443") :=
  ⟨rfl,
   setProductProperty_unique_latest_value stD "appPort" "443" "string" false false
     "\x7bovfuri\x7dProductSection" [] none
     [Node.elem "\x7bovfuri\x7dProduct" [] (some "p") [],
      Node.elem "\x7bovfuri\x7dVersion" [] (some "1") [],
      Node.elem "\x7bovfuri\x7dFullVersion" [] (some "1") []] rfl⟩

/-! ### C3: load failure conditions -/

/-- C3 (amended): with the descriptor file present and parseable,
construction fails exactly when one of the four anchor queries returns
*zero* matches; a query returning several matches does not fail — the
first match is used (see the counterexample below).  Construction performs
no write: `load` only reads the filesystem, as its definition shows. -/
theorem load_fails_iff_missing_anchor
    (nm : List (String × String)) (ovfPath content : String) (fs : FS) (doc : Node)
    (hc : fs (joinPath (dirname ovfPath) (basename ovfPath)) = some content)
    (hp : parseOvfXml content = some doc) :
    load nm ovfPath fs = none ↔
      (productQuery nm doc = [] ∨ vhwQuery nm doc = [] ∨ annoQuery nm doc = [] ∨
       fileQuery nm doc = []) := by
  rw [load]
  simp only [hc, hp]
  rw [loadDoc]
  cases hq1 : productQuery nm doc <;> cases hq2 : vhwQuery nm doc <;>
    cases hq3 : annoQuery nm doc <;> cases hq4 : fileQuery nm doc <;> simp

set_option maxRecDepth 100000 in
/-- Counterexample to C3 as stated: `doc3` carries two ProductSection
anchors (the ProductSection query returns two matches), yet loading it
succeeds — `xpath(...)[0]` silently takes the first match instead of
failing on duplicated sections. -/
theorem load_succeeds_on_duplicate_anchor :
    (productQuery nmW doc3).length = 2 ∧ (load nmW "x.ovf" fs3).isSome = true := by
  constructor
  · decide
  · decide

set_option maxRecDepth 100000 in
/-- Witness for C3 at a concrete well-formed descriptor: all four queries
are non-empty and the load indeed succeeds. -/
theorem load_fails_iff_missing_anchor_witness :
    fsD (joinPath (dirname "x.ovf") (basename "x.ovf")) = some (xmlToString docW) ∧
    parseOvfXml (xmlToString docW) = some docW ∧
    (load nmW "x.ovf" fsD = none ↔
      (productQuery nmW docW = [] ∨ vhwQuery nmW docW = [] ∨ annoQuery nmW docW = [] ∨
       fileQuery nmW docW = [])) :=
  ⟨by decide, by rfl,
   load_fails_iff_missing_anchor nmW "x.ovf" (xmlToString docW) fsD docW (by decide) (by rfl)⟩

/-! ### C4: setVersion -/

theorem matchesStep_elem (nm : List (String × String)) (s : Step) (c : Node)
    (h : matchesStep nm s c = true) : ∃ t a x cs, c = Node.elem t a x cs := by
  cases c with
  | elem t a x cs => exact ⟨t, a, x, cs, rfl⟩
  | comment t => simp [matchesStep] at h

theorem textOf_setNodeText (nm : List (String × String)) (s : Step) (v : String) (c : Node)
    (h : matchesStep nm s c = true) : textOf (setNodeText v c) = some v := by
  obtain ⟨t, a, x, cs, rfl⟩ := matchesStep_elem nm s c h
  rfl

theorem head?_matchIdxs_elem (nm : List (String × String)) (s : Step) (cs : List Node)
    (i : Nat) (h : (matchIdxs nm s cs).head? = some i) :
    ∃ c, cs.get? i = some c ∧ matchesStep nm s c = true := by
  apply mem_matchIdxs nm s cs i
  cases hl : matchIdxs nm s cs with
  | nil => rw [hl] at h; exact absurd h (by simp)
  | cons a as =>
    rw [hl] at h
    have ha : a = i := by simpa using h
    exact ha ▸ List.mem_cons_self a as

theorem matchIdxs_children_setChildText (nm : List (String × String)) (s : Step)
    (v : String) (i : Nat) (ps : Node) :
    matchIdxs nm s (children (setChildText i v ps)) = matchIdxs nm s (children ps) := by
  cases ps with
  | elem t a x cs => simp [setChildText, children, matchIdxs_setNodeText]
  | comment t => rfl

theorem firstChildText_after_two_sets (nm : List (String × String)) (lc v te : String)
    (ae : List (String × String)) (xe : Option String) (cse : List Node)
    (i j k : Nat) (ck : Node) (hk : cse.get? k = some ck)
    (hm : matchesStep nm (ovfStep lc) ck = true)
    (hhead : (matchIdxs nm (ovfStep lc) cse).head? = some k)
    (hkij : k = i ∨ k = j) :
    firstChildText nm lc (Node.elem te ae xe
      (modifyIdx (setNodeText v) j (modifyIdx (setNodeText v) i cse))) = some (some v) := by
  have hget : ∃ b, (modifyIdx (setNodeText v) j (modifyIdx (setNodeText v) i cse)).get? k =
      some b ∧ textOf b = some v := by
    by_cases hi : k = i
    · subst hi
      have hinner : (modifyIdx (setNodeText v) k cse).get? k = some (setNodeText v ck) := by
        rw [modifyIdx_get?_self, hk]; rfl
      by_cases hj : k = j
      · subst hj
        refine ⟨setNodeText v (setNodeText v ck), ?_, ?_⟩
        · rw [modifyIdx_get?_self, hinner]; rfl
        · exact textOf_setNodeText nm (ovfStep lc) v _
            (by rw [matchesStep_setNodeText]; exact hm)
      · refine ⟨setNodeText v ck, ?_, ?_⟩
        · rw [modifyIdx_get?_ne _ j k _ hj]
          exact hinner
        · exact textOf_setNodeText nm (ovfStep lc) v ck hm
    · have hj : k = j := hkij.resolve_left hi
      subst hj
      refine ⟨setNodeText v ck, ?_, ?_⟩
      · rw [modifyIdx_get?_self, modifyIdx_get?_ne _ i k _ hi, hk]
        rfl
      · exact textOf_setNodeText nm (ovfStep lc) v ck hm
  obtain ⟨b, hb, htb⟩ := hget
  rw [firstChildText]
  have hmeq : matchIdxs nm (ovfStep lc)
      (children (Node.elem te ae xe
        (modifyIdx (setNodeText v) j (modifyIdx (setNodeText v) i cse)))) =
      matchIdxs nm (ovfStep lc) cse := by
    simp only [children]
    rw [matchIdxs_setNodeText, matchIdxs_setNodeText]
  rw [hmeq, hhead]
  simp only [children, hb, htb]

/-- C4 (amended): `setVersion` overwrites the text of the first `Version`
and the first `FullVersion` child of the ProductSection and fails when
either is absent; when `Version` itself is absent the document is left
unchanged, but when `Version` is present and only `FullVersion` is absent,
the failure is raised *after* `Version`'s text has already been
overwritten, so the document is partially mutated. -/
theorem setVersion_behavior
    (st : OVFCustomizer) (version : String) (ps : Node)
    (h : getAt st.productSection st.ovfXml = some ps) :
    ((matchIdxs st.nsMap (ovfStep "Version") (children ps)).head? = none →
      setVersion st version = (st, some MutErr.indexError)) ∧
    (∀ i, (matchIdxs st.nsMap (ovfStep "Version") (children ps)).head? = some i →
      (matchIdxs st.nsMap (ovfStep "FullVersion") (children ps)).head? = none →
      setVersion st version =
        ({ st with ovfXml := modifyAt st.productSection (setChildText i version) st.ovfXml },
         some MutErr.indexError)) ∧
    (∀ i j, (matchIdxs st.nsMap (ovfStep "Version") (children ps)).head? = some i →
      (matchIdxs st.nsMap (ovfStep "FullVersion") (children ps)).head? = some j →
      (setVersion st version).2 = none ∧
      versionText (setVersion st version).1 = some (some version) ∧
      fullVersionText (setVersion st version).1 = some (some version)) := by
  refine ⟨?_, ?_, ?_⟩
  · intro h1
    simp [setVersion, h, h1]
  · intro i h1 h2
    simp [setVersion, h, h1, matchIdxs_children_setChildText, h2]
  · intro i j h1 h2
    obtain ⟨ci, hci, hmi⟩ := head?_matchIdxs_elem _ _ _ _ h1
    obtain ⟨cj, hcj, hmj⟩ := head?_matchIdxs_elem _ _ _ _ h2
    cases ps with
    | comment t =>
      exact absurd hci (by simp [children])
    | elem te ae xe cse =>
      simp only [children] at h1 h2 hci hcj
      have hsv : setVersion st version =
          ({ st with ovfXml := modifyAt st.productSection (setChildText j version) (modifyAt st.productSection (setChildText i version) st.ovfXml) }, none) := by
        simp [setVersion, h, h1, matchIdxs_children_setChildText, h2, setChildText, children,
          matchIdxs_setNodeText]
      rw [hsv]
      have g1 := getAt_modifyAt_self st.productSection (setChildText i version) st.ovfXml _ h
      have g2 := getAt_modifyAt_self st.productSection (setChildText j version) _ _ g1
      refine ⟨rfl, ?_, ?_⟩
      · rw [versionText]
        simp only []
        rw [g2]
        simp only [setChildText]
        exact firstChildText_after_two_sets st.nsMap "Version" version te ae xe cse
          i j i ci hci hmi h1 (Or.inl rfl)
      · rw [fullVersionText]
        simp only []
        rw [g2]
        simp only [setChildText]
        exact firstChildText_after_two_sets st.nsMap "FullVersion" version te ae xe cse
          i j j cj hcj hmj h2 (Or.inr rfl)

set_option maxRecDepth 8000 in
/-- Counterexample to C4 as stated: on `st4`, whose ProductSection has a
`Version` child but no `FullVersion` child, `setVersion` fails — but only
after overwriting `Version`'s text from `"1"` to `"9"`, so the failure does
not leave the document unchanged. -/
theorem setVersion_mutates_before_failing :
    (setVersion st4 "9").2 = some MutErr.indexError ∧
    versionText st4 = some (some "1") ∧
    versionText (setVersion st4 "9").1 = some (some "9") :=
  ⟨by decide, by decide, by decide⟩

set_option maxRecDepth 8000 in
/-- Witness for C4: on the fully-formed `stD` both texts are overwritten
and the call succeeds; the partial-mutation branch is exercised by the
hypotheses of the theorem at this concrete ProductSection. -/
theorem setVersion_behavior_witness :
    getAt stD.productSection stD.ovfXml = some (Node.elem "\x7bovfuri\x7dProductSection" [] none
      [Node.elem "\x7bovfuri\x7dProduct" [] (some "p") [],
       Node.elem "\x7bovfuri\x7dVersion" [] (some "1") [],
       Node.elem "\x7bovfuri\x7dFullVersion" [] (some "1") []]) ∧
    ((setVersion stD "1.2.3").2 = none ∧
     versionText (setVersion stD "1.2.3").1 = some (some "1.2.3") ∧
     fullVersionText (setVersion stD "1.2.3").1 = some (some "1.2.3")) :=
  ⟨rfl,
   (setVersion_behavior stD "1.2.3" (Node.elem "\x7bovfuri\x7dProductSection" [] none
      [Node.elem "\x7bovfuri\x7dProduct" [] (some "p") [],
       Node.elem "\x7bovfuri\x7dVersion" [] (some "1") [],
       Node.elem "\x7bovfuri\x7dFullVersion" [] (some "1") []]) rfl).2.2 1 2 rfl rfl⟩

/-! ### C5 and C9: commit -/

/-- C5: commit serializes the document once; that very string is what the
descriptor file holds afterwards, and the digest written into a matching
`SHA256(…)=` (resp. `SHA1(…)=`) manifest line is the SHA-256 (resp. SHA-1)
digest of that same string — so the recorded digest is the digest of the
rewritten descriptor content. -/
theorem commit_digest_matches_descriptor
    (sha1 sha256 : String → String) (st : OVFCustomizer) (fs : FS) (mfContent : String)
    (hne : manifestPath st ≠ descriptorPath st)
    (hmf : fs (manifestPath st) = some mfContent) :
    (commit sha1 sha256 st fs).2 = none ∧
    (commit sha1 sha256 st fs).1 (descriptorPath st) = some (xmlToString st.ovfXml) ∧
    (commit sha1 sha256 st fs).1 (manifestPath st) =
      some (String.join ((readlinesPy mfContent).map
        (commitManifestLine st.ovfFilename sha1 sha256 (xmlToString st.ovfXml)))) ∧
    (∀ line : String, pyStartsWith line ("SHA256(" ++ st.ovfFilename ++ ")=") = true →
      commitManifestLine st.ovfFilename sha1 sha256 (xmlToString st.ovfXml) line =
        "SHA256(" ++ st.ovfFilename ++ ")= " ++ sha256 (xmlToString st.ovfXml) ++ "\n") ∧
    (∀ line : String, pyStartsWith line ("SHA1(" ++ st.ovfFilename ++ ")=") = true →
      commitManifestLine st.ovfFilename sha1 sha256 (xmlToString st.ovfXml) line =
        "SHA1(" ++ st.ovfFilename ++ ")= " ++ sha1 (xmlToString st.ovfXml) ++ "\n") := by
  have hmf1 : (commitOvf st (xmlToString st.ovfXml) fs) (manifestPath st) = some mfContent := by
    simp [commitOvf, writeFile, hne, hmf]
  have hcm : commitManifest sha1 sha256 st (xmlToString st.ovfXml)
      (commitOvf st (xmlToString st.ovfXml) fs) =
      some (writeFile (commitOvf st (xmlToString st.ovfXml) fs) (manifestPath st)
        (String.join ((readlinesPy mfContent).map
          (commitManifestLine st.ovfFilename sha1 sha256 (xmlToString st.ovfXml))))) := by
    rw [commitManifest, hmf1]
  have hc : commit sha1 sha256 st fs =
      (writeFile (commitOvf st (xmlToString st.ovfXml) fs) (manifestPath st)
        (String.join ((readlinesPy mfContent).map
          (commitManifestLine st.ovfFilename sha1 sha256 (xmlToString st.ovfXml)))), none) := by
    rw [commit]
    simp only [hcm]
  refine ⟨by rw [hc], ?_, ?_, ?_, ?_⟩
  · rw [hc]
    simp [writeFile, commitOvf, Ne.symm hne]
  · rw [hc]
    simp [writeFile]
  · intro line h2
    simp [commitManifestLine, sha_prefixes_exclusive line st.ovfFilename h2, h2]
  · intro line h1
    simp [commitManifestLine, h1]

/-- Witness for C5 on the concrete descriptor/manifest pair. -/
theorem commit_digest_matches_descriptor_witness :
    manifestPath stD ≠ descriptorPath stD ∧
    fsDM (manifestPath stD) = some mfW ∧
    (commit sha1W sha2W stD fsDM).2 = none ∧
    (commit sha1W sha2W stD fsDM).1 (descriptorPath stD) = some (xmlToString stD.ovfXml) :=
  ⟨by decide, by decide,
   (commit_digest_matches_descriptor sha1W sha2W stD fsDM mfW (by decide) (by decide)).1,
   (commit_digest_matches_descriptor sha1W sha2W stD fsDM mfW (by decide) (by decide)).2.1⟩

/-- C9: `commit` performs the descriptor write first and only then opens
the manifest; when the manifest sidecar is missing, the reported failure
therefore leaves the descriptor file already overwritten with the new
serialization while the manifest stays absent. -/
theorem commit_descriptor_written_on_missing_manifest
    (sha1 sha256 : String → String) (st : OVFCustomizer) (fs : FS)
    (hne : manifestPath st ≠ descriptorPath st)
    (hmf : fs (manifestPath st) = none) :
    commit sha1 sha256 st fs =
      (commitOvf st (xmlToString st.ovfXml) fs, some CommitErr.manifestNotFound) ∧
    (commit sha1 sha256 st fs).1 (descriptorPath st) = some (xmlToString st.ovfXml) ∧
    (commit sha1 sha256 st fs).1 (manifestPath st) = none := by
  have hmf1 : (commitOvf st (xmlToString st.ovfXml) fs) (manifestPath st) = none := by
    simp [commitOvf, writeFile, hne, hmf]
  have hcm : commitManifest sha1 sha256 st (xmlToString st.ovfXml)
      (commitOvf st (xmlToString st.ovfXml) fs) = none := by
    rw [commitManifest, hmf1]
  have hc : commit sha1 sha256 st fs =
      (commitOvf st (xmlToString st.ovfXml) fs, some CommitErr.manifestNotFound) := by
    rw [commit]
    simp only [hcm]
  refine ⟨hc, ?_, ?_⟩
  · rw [hc]
    simp [commitOvf, writeFile]
  · rw [hc]
    exact hmf1

/-- Witness for C9: committing `stD` over a filesystem without `x.mf`
fails, yet `x.ovf` now holds the new serialization. -/
theorem commit_descriptor_written_on_missing_manifest_witness :
    manifestPath stD ≠ descriptorPath stD ∧
    fsD (manifestPath stD) = none ∧
    (commit sha1W sha2W stD fsD).1 (descriptorPath stD) = some (xmlToString stD.ovfXml) ∧
    (commit sha1W sha2W stD fsD).1 (manifestPath stD) = none :=
  ⟨by decide, by decide,
   (commit_descriptor_written_on_missing_manifest sha1W sha2W stD fsD (by decide) (by decide)).2.1,
   (commit_descriptor_written_on_missing_manifest sha1W sha2W stD fsD (by decide) (by decide)).2.2⟩

/-! ### C10: manifest filename derivation -/

theorem rfindIdx_eq_none (c : Char) (xs : List Char) (h : c ∉ xs) : rfindIdx c xs = none := by
  induction xs with
  | nil => rfl
  | cons a as ih =>
    have ha : a ≠ c := fun hc => h (hc ▸ List.mem_cons_self a as)
    rw [rfindIdx, ih (fun hc => h (List.mem_cons_of_mem a hc))]
    simp [ha]

theorem rfindIdx_append_last (c : Char) (xs ys : List Char) (hys : c ∉ ys) :
    rfindIdx c (xs ++ c :: ys) = some xs.length := by
  induction xs with
  | nil =>
    rw [List.nil_append, rfindIdx, rfindIdx_eq_none c ys hys]
    simp
  | cons a as ih =>
    rw [List.cons_append, rfindIdx, ih]
    rfl

theorem splitext_splits (stem ext : String)
    (hstem : stem.data.any (fun c => decide (c ≠ '.')) = true)
    (hext : '.' ∉ ext.data)
    (hs1 : '/' ∉ stem.data) (hs2 : '/' ∉ ext.data) :
    splitext (stem ++ "." ++ ext) = (stem, ⟨'.' :: ext.data⟩) := by
  have hdata : (stem ++ "." ++ ext).data = stem.data ++ '.' :: ext.data := by
    rw [sdata_append, sdata_append, List.append_assoc]
    rfl
  have hdot : rfindIdx '.' (stem ++ "." ++ ext).data = some stem.data.length := by
    rw [hdata]
    exact rfindIdx_append_last '.' stem.data ext.data hext
  have hslash : rfindIdx '/' (stem ++ "." ++ ext).data = none := by
    rw [hdata]
    apply rfindIdx_eq_none
    intro hmem
    rcases List.mem_append.mp hmem with hm | hm
    · exact hs1 hm
    · rcases List.mem_cons.mp hm with hm2 | hm2
      · exact absurd hm2 (by decide)
      · exact hs2 hm2
  rw [splitext]
  simp only [hdot, hslash]
  have htake : (stem ++ "." ++ ext).data.take stem.data.length = stem.data := by
    rw [hdata]
    exact List.take_left stem.data ('.' :: ext.data)
  have hdrop : (stem ++ "." ++ ext).data.drop stem.data.length = '.' :: ext.data := by
    rw [hdata]
    exact List.drop_left stem.data ('.' :: ext.data)
  have hany : (((stem ++ "." ++ ext).data.drop 0).take (stem.data.length - 0)).any
      (fun c => decide (c ≠ '.')) = true := by
    simpa [htake] using hstem
  simp only [hany, if_true, htake, hdrop]

/-- C10: the manifest sidecar name drops the descriptor filename's final
extension and appends `.mf`: for a descriptor named `<stem>.<ext>` (with a
dot-free extension and a stem that is not all dots) the manifest path used
by commit — `manifestPath`, the path `commitManifest` both reads and
rewrites — is `<stem>.mf` joined to the descriptor's directory, not
`<stem>.<ext>.mf`. -/
theorem mfFilename_drops_final_extension
    (stem ext : String)
    (hstem : stem.data.any (fun c => decide (c ≠ '.')) = true)
    (hext : '.' ∉ ext.data)
    (hs1 : '/' ∉ stem.data) (hs2 : '/' ∉ ext.data) :
    mfFilename (stem ++ "." ++ ext) = stem ++ ".mf" ∧
    (∀ st : OVFCustomizer, st.ovfFilename = stem ++ "." ++ ext →
      manifestPath st = joinPath st.ovfDir (stem ++ ".mf")) := by
  have h1 : mfFilename (stem ++ "." ++ ext) = stem ++ ".mf" := by
    rw [mfFilename, splitext_splits stem ext hstem hext hs1 hs2]
  refine ⟨h1, ?_⟩
  intro st hst
  rw [manifestPath, hst, h1]

/-- Witness for C10: `x.ovf` maps to `x.mf`, not `x.ovf.mf`. -/
theorem mfFilename_drops_final_extension_witness :
    ("x" : String).data.any (fun c => decide (c ≠ '.')) = true ∧
    mfFilename ("x" ++ "." ++ "ovf") = "x" ++ ".mf" ∧
    mfFilename "x.ovf" = "x.mf" ∧ mfFilename "x.ovf" ≠ "x.ovf.mf" :=
  ⟨by decide,
   (mfFilename_drops_final_extension "x" "ovf" (by decide) (by decide) (by decide) (by decide)).1,
   by decide, by decide⟩

/-! ### C7: frame effects of the mutators -/

theorem tag_of_matchesStep (nm : List (String × String)) (s : Step) (c : Node)
    (h : matchesStep nm s c = true) :
    ∃ a x cs, c = Node.elem (nsName nm s.ns s.loc) a x cs := by
  cases c with
  | comment t => simp [matchesStep] at h
  | elem t a x cs =>
    rw [matchesStep, Bool.and_eq_true] at h
    have ht : t = nsName nm s.ns s.loc := of_decide_eq_true h.1
    exact ⟨a, x, cs, by rw [ht]⟩

theorem paths_disjoint_of_head_ne (i j k l : Nat) (h : i ≠ k) :
    PathDisjoint [i, j] [k, l] := by
  constructor
  · intro hc
    exact h (List.cons_prefix_cons.mp hc).1
  · intro hc
    exact h ((List.cons_prefix_cons.mp hc).1).symm

theorem anchor_disjoint_of_file (nm : List (String × String)) (doc : Node) (s3 : Step)
    (p fp : Path)
    (hp : p ∈ anchorQuery nm (ovfStep "Envelope") (ovfStep "VirtualSystem") s3 doc)
    (hfp : fp ∈ fileQuery nm doc) : PathDisjoint p fp := by
  obtain ⟨i, j, c1, c2, hpij, hc1, hm1, hc2, hm2⟩ := mem_anchorQuery _ _ _ _ _ _ hp
  obtain ⟨k, l, e1, e2, hfkl, he1, hn1, he2, hn2⟩ := mem_anchorQuery _ _ _ _ _ _ hfp
  subst hpij hfkl
  apply paths_disjoint_of_head_ne
  intro hik
  subst hik
  have hce : c1 = e1 := by
    have := hc1.symm.trans he1
    exact Option.some.inj this
  subst hce
  obtain ⟨a1, x1, cs1, ht1⟩ := tag_of_matchesStep _ _ _ hm1
  obtain ⟨a2, x2, cs2, ht2⟩ := tag_of_matchesStep _ _ _ hn1
  rw [ht1] at ht2
  have htag : nsName nm "ovf" "VirtualSystem" = nsName nm "ovf" "References" :=
    (Node.elem.injEq _ _ _ _ _ _ _ _ ▸ ht2).1
  exact nsName_ne_of_length nm "ovf" "VirtualSystem" "References" (by decide) htag

theorem loadDoc_anchors_disjoint_file (d f : String) (nm : List (String × String))
    (doc : Node) (st : OVFCustomizer) (h : loadDoc d f nm doc = some st) :
    PathDisjoint st.productSection st.FileSection ∧
    PathDisjoint st.vhwSection st.FileSection ∧
    PathDisjoint st.annoSection st.FileSection := by
  rw [loadDoc] at h
  cases hq1 : productQuery nm doc with
  | nil => rw [hq1] at h; exact absurd h (by simp)
  | cons p ps =>
    cases hq2 : vhwQuery nm doc with
    | nil => rw [hq1, hq2] at h; exact absurd h (by simp)
    | cons v vs =>
      cases hq3 : annoQuery nm doc with
      | nil => rw [hq1, hq2, hq3] at h; exact absurd h (by simp)
      | cons a as =>
        cases hq4 : fileQuery nm doc with
        | nil => rw [hq1, hq2, hq3, hq4] at h; exact absurd h (by simp)
        | cons fp fs =>
          rw [hq1, hq2, hq3, hq4] at h
          have hst := Option.some.inj h
          subst hst
          have hfp : fp ∈ fileQuery nm doc := by
            rw [hq4]; exact List.mem_cons_self fp fs
          refine ⟨?_, ?_, ?_⟩
          · exact anchor_disjoint_of_file nm doc (ovfStep "ProductSection") p fp
              (by rw [productQuery] at hq1; rw [hq1]; exact List.mem_cons_self p ps) hfp
          · exact anchor_disjoint_of_file nm doc (ovfStep "VirtualHardwareSection") v fp
              (by rw [vhwQuery] at hq2; rw [hq2]; exact List.mem_cons_self v vs) hfp
          · exact anchor_disjoint_of_file nm doc (ovfStep "AnnotationSection") a fp
              (by rw [annoQuery] at hq3; rw [hq3]; exact List.mem_cons_self a as) hfp

theorem setVersion_ovfXml_shape (st : OVFCustomizer) (v : String) :
    (setVersion st v).1.ovfXml = st.ovfXml ∨
    (∃ i, (setVersion st v).1.ovfXml =
      modifyAt st.productSection (setChildText i v) st.ovfXml) ∨
    (∃ i j, (setVersion st v).1.ovfXml =
      modifyAt st.productSection (setChildText j v) (modifyAt st.productSection (setChildText i v) st.ovfXml)) := by
  rw [setVersion]
  split
  · left; rfl
  · split
    · left; rfl
    · dsimp only
      split
      · right; left; exact ⟨_, rfl⟩
      · right; right; exact ⟨_, _, rfl⟩

theorem setProduct_ovfXml_shape (st : OVFCustomizer) (v : String) :
    (setProduct st v).1.ovfXml = st.ovfXml ∨
    (∃ i, (setProduct st v).1.ovfXml =
      modifyAt st.productSection (setChildText i v) st.ovfXml) := by
  rw [setProduct]
  split
  · left; rfl
  · split
    · left; rfl
    · right; exact ⟨_, rfl⟩

/-- C7: every mutator touches only its designated anchor subtree.  Nodes at
any path disjoint from the ProductSection anchor are unchanged by
`setProductProperty`, `setVersion` and `setProduct`; nodes disjoint from
the VirtualHardwareSection anchor are unchanged by `setExtraConfig`; nodes
disjoint from the AnnotationSection anchor are unchanged by
`setAnnotation`; and on any loaded state the `References/File` element is
unchanged by all five mutators. -/
theorem mutators_touch_only_their_anchor
    (st : OVFCustomizer) (key value type ver prod text : String) (uc wc req : Bool)
    (q : Path) :
    (PathDisjoint st.productSection q →
      getAt q (setProductProperty st key value type uc wc).ovfXml = getAt q st.ovfXml ∧
      getAt q (setVersion st ver).1.ovfXml = getAt q st.ovfXml ∧
      getAt q (setProduct st prod).1.ovfXml = getAt q st.ovfXml) ∧
    (PathDisjoint st.vhwSection q →
      getAt q (setExtraConfig st key value req).ovfXml = getAt q st.ovfXml) ∧
    (PathDisjoint st.annoSection q →
      getAt q ( setAnnotation st text).ovfXml = getAt q st.ovfXml) ∧
    (∀ d f nm doc, loadDoc d f nm doc = some st →
      getAt st.FileSection (setProductProperty st key value type uc wc).ovfXml =
        getAt st.FileSection st.ovfXml ∧
      getAt st.FileSection (setVersion st ver).1.ovfXml = getAt st.FileSection st.ovfXml ∧
      getAt st.FileSection (setProduct st prod).1.ovfXml = getAt st.FileSection st.ovfXml ∧
      getAt st.FileSection (setExtraConfig st key value req).ovfXml =
        getAt st.FileSection st.ovfXml ∧
      getAt st.FileSection ( setAnnotation st text).ovfXml = getAt st.FileSection st.ovfXml) := by
  have hver : ∀ r : Path, PathDisjoint st.productSection r →
      getAt r (setVersion st ver).1.ovfXml = getAt r st.ovfXml := by
    intro r hd
    rcases setVersion_ovfXml_shape st ver with hs | ⟨i, hs⟩ | ⟨i, j, hs⟩
    · rw [hs]
    · rw [hs, getAt_modifyAt_disjoint _ _ _ _ hd]
    · rw [hs, getAt_modifyAt_disjoint _ _ _ _ hd, getAt_modifyAt_disjoint _ _ _ _ hd]
  have hprod : ∀ r : Path, PathDisjoint st.productSection r →
      getAt r (setProduct st prod).1.ovfXml = getAt r st.ovfXml := by
    intro r hd
    rcases setProduct_ovfXml_shape st prod with hs | ⟨i, hs⟩
    · rw [hs]
    · rw [hs, getAt_modifyAt_disjoint _ _ _ _ hd]
  refine ⟨?_, ?_, ?_, ?_⟩
  · intro hd
    exact ⟨getAt_modifyAt_disjoint _ _ _ _ hd, hver q hd, hprod q hd⟩
  · intro hd
    exact getAt_modifyAt_disjoint _ _ _ _ hd
  · intro hd
    exact getAt_modifyAt_disjoint _ _ _ _ hd
  · intro d f nm doc hload
    obtain ⟨hd1, hd2, hd3⟩ := loadDoc_anchors_disjoint_file d f nm doc st hload
    exact ⟨getAt_modifyAt_disjoint _ _ _ _ hd1, hver st.FileSection hd1,
      hprod st.FileSection hd1, getAt_modifyAt_disjoint _ _ _ _ hd2,
      getAt_modifyAt_disjoint _ _ _ _ hd3⟩

set_option maxRecDepth 100000 in
/-- Witness for C7 on the loaded concrete state: the path `[0, 0]` (the
File element) is disjoint from the ProductSection anchor and survives a
product-property edit and an annotation edit untouched. -/
theorem mutators_touch_only_their_anchor_witness :
    PathDisjoint stD.productSection [0, 0] ∧
    getAt [0, 0] (setProductProperty stD "k" "v" "string" false false).ovfXml =
      getAt [0, 0] stD.ovfXml ∧
    loadDoc "" "x.ovf" nmW docW = some stD ∧
    getAt stD.FileSection ( setAnnotation stD "a").ovfXml = getAt stD.FileSection stD.ovfXml :=
  ⟨by decide,
   ((mutators_touch_only_their_anchor stD "k" "v" "string" "1" "p" "t" false false false
      [0, 0]).1 (by decide)).1,
   by rfl,
   ((mutators_touch_only_their_anchor stD "k" "v" "string" "1" "p" "t" false false false
      [0, 0]).2.2.2 "" "x.ovf" nmW docW (by rfl)).2.2.2.2⟩

/-! ### C6: the diff reporter -/

theorem slAux_reconstruct (ds : List Char) : ∀ acc, '\r' ∉ ds →
    joinNL (slAux (ds ++ ['\n']) acc) = acc.reverse ++ ds ++ ['\n'] := by
  induction ds with
  | nil =>
    intro acc hh
    simp [slAux, joinNL]
  | cons c ds2 ih =>
    intro acc hh
    have hcr : c ≠ '\r' := fun hc => hh (hc ▸ List.mem_cons_self c ds2)
    have hds2 : '\r' ∉ ds2 := fun hm => hh (List.mem_cons_of_mem c hm)
    by_cases hn : c = '\n'
    · subst hn
      rw [List.cons_append]
      rw [show slAux ('\n' :: (ds2 ++ ['\n'])) acc = acc.reverse :: slAux (ds2 ++ ['\n']) []
        from rfl]
      rw [joinNL, ih [] hds2]
      simp
    · rw [List.cons_append]
      have harm : slAux (c :: (ds2 ++ ['\n'])) acc = slAux (ds2 ++ ['\n']) (c :: acc) := by
        match ds2 with
        | [] => simp [slAux, hn, hcr]
        | d :: ds3 => simp [slAux, hn, hcr]
      rw [harm, ih (c :: acc) hds2]
      simp

theorem printNodeChars_ends_nl (d : Nat) (n : Node) :
    ∃ l, printNodeChars d n = l ++ ['\n'] := by
  cases n with
  | comment t =>
    refine ⟨indentChars d ++ '<' :: '!' :: '-' :: '-' :: (t.data ++ ['-', '-', '>']), ?_⟩
    simp [printNodeChars]
  | elem t a txt cs =>
    cases cs with
    | nil =>
      cases txt with
      | none =>
        refine ⟨indentChars d ++ '<' :: (t.data ++ printAttrsChars a ++ ['/', '>']), ?_⟩
        simp [printNodeChars]
      | some s =>
        refine ⟨indentChars d ++ '<' :: (t.data ++ printAttrsChars a ++
          '>' :: (s.data ++ '<' :: '/' :: (t.data ++ ['>']))), ?_⟩
        simp [printNodeChars]
    | cons c cs2 =>
      cases txt with
      | none =>
        refine ⟨indentChars d ++ '<' :: (t.data ++ printAttrsChars a ++ '>' :: '\n' ::
          (printNodesChars (d + 1) (c :: cs2) ++ indentChars d ++ '<' :: '/' ::
            (t.data ++ ['>']))), ?_⟩
        simp [printNodeChars]
      | some s =>
        refine ⟨indentChars d ++ '<' :: (t.data ++ printAttrsChars a ++ '>' :: (s.data ++ '\n' ::
          (printNodesChars (d + 1) (c :: cs2) ++ indentChars d ++ '<' :: '/' ::
            (t.data ++ ['>'])))), ?_⟩
        simp [printNodeChars]

theorem xmlToString_ends_nl (n : Node) : ∃ l, (xmlToString n).data = l ++ ['\n'] := by
  obtain ⟨l, hl⟩ := printNodeChars_ends_nl 0 n
  refine ⟨declChars ++ l, ?_⟩
  show declChars ++ printNodeChars 0 n = declChars ++ l ++ ['\n']
  rw [hl, List.append_assoc]

theorem sext (s t : String) (h : s.data = t.data) : s = t := by
  cases s
  cases t
  exact congrArg String.mk h

theorem splitlines_inj (s t : String) (hs : '\r' ∉ s.data) (ht : '\r' ∉ t.data)
    (hs2 : ∃ l, s.data = l ++ ['\n']) (ht2 : ∃ l, t.data = l ++ ['\n'])
    (h : splitlinesPy s = splitlinesPy t) : s = t := by
  obtain ⟨ls, hls⟩ := hs2
  obtain ⟨lt, hlt⟩ := ht2
  have hinj : Function.Injective (fun l : List Char => (⟨l⟩ : String)) := by
    intro a b hab
    exact congrArg String.data hab
  have hsl : slAux s.data [] = slAux t.data [] := by
    rw [splitlinesPy, splitlinesPy] at h
    exact List.map_injective_iff.mpr hinj h
  apply sext
  have e1 : joinNL (slAux (ls ++ ['\n']) []) = ls ++ ['\n'] := by
    have := slAux_reconstruct ls []
      (fun hm => hs (hls ▸ List.mem_append.mpr (Or.inl hm)))
    simpa using this
  have e2 : joinNL (slAux (lt ++ ['\n']) []) = lt ++ ['\n'] := by
    have := slAux_reconstruct lt []
      (fun hm => ht (hlt ▸ List.mem_append.mpr (Or.inl hm)))
    simpa using this
  calc s.data = joinNL (slAux s.data []) := by rw [hls]; exact e1.symm
    _ = joinNL (slAux t.data []) := by rw [hsl]
    _ = t.data := by rw [hlt]; exact e2

theorem pyJoinNL_cons_length (x : String) (xs : List String) :
    x.length ≤ (pyJoinNL (x :: xs)).length := by
  cases xs with
  | nil => exact Nat.le_refl _
  | cons y ys =>
    rw [show pyJoinNL (x :: y :: ys) = x ++ "\n" ++ pyJoinNL (y :: ys) from rfl]
    rw [slength_append, slength_append]
    omega

/-- C6: the diff reporter writes nothing (its type reads the filesystem and
returns only text), may be invoked at any time, and — provided the on-disk
descriptor parses and neither canonical serialization contains a carriage
return — returns the empty diff exactly when the canonical serialization of
the in-memory document equals that of the on-disk descriptor. -/
theorem ovfDiff_empty_iff_no_change
    (st : OVFCustomizer) (fs : FS) (content : String) (doc : Node)
    (hc : fs (descriptorPath st) = some content)
    (hp : parseOvfXml content = some doc)
    (h1 : '\r' ∉ (xmlToString doc).data)
    (h2 : '\r' ∉ (xmlToString st.ovfXml).data) :
    ovfDiff st fs = some "" ↔ xmlToString doc = xmlToString st.ovfXml := by
  rw [ovfDiff, hc]
  simp only [hp]
  constructor
  · intro h
    have hj := Option.some.inj h
    have heq : splitlinesPy (xmlToString doc) = splitlinesPy (xmlToString st.ovfXml) := by
      by_contra hne
      rw [unifiedDiff, if_neg hne] at hj
      have hge := pyJoinNL_cons_length "--- " ("+++ " ::
        ((splitlinesPy (xmlToString doc)).map (fun l => "-" ++ l) ++
         (splitlinesPy (xmlToString st.ovfXml)).map (fun l => "+" ++ l)))
      rw [hj] at hge
      exact absurd hge (by decide)
    exact splitlines_inj _ _ h1 h2 (xmlToString_ends_nl doc) (xmlToString_ends_nl st.ovfXml) heq
  · intro h
    rw [h, unifiedDiff, if_pos rfl]
    rfl

set_option maxRecDepth 200000 in
/-- Witness for C6: on the concrete state freshly loaded from disk the diff
is empty, and the equivalence is exercised at that state. -/
theorem ovfDiff_empty_iff_no_change_witness :
    fsDM (descriptorPath stD) = some (xmlToString docW) ∧
    parseOvfXml (xmlToString docW) = some docW ∧
    '\r' ∉ (xmlToString docW).data ∧
    (ovfDiff stD fsDM = some "" ↔ xmlToString docW = xmlToString stD.ovfXml) :=
  ⟨by decide, by rfl, by decide,
   ovfDiff_empty_iff_no_change stD fsDM (xmlToString docW) docW (by decide) (by rfl)
     (by decide) (by decide)⟩

/-! ### C8: serializer-parser round-trip -/
theorem expects_append (p r : List Char) : expects p (p ++ r) = some r := by
  induction p with
  | nil => rfl
  | cons a ps ih => simp [expects, ih]

theorem expects_strip (a p i : List Char) : expects (a ++ p) (a ++ i) = expects p i := by
  induction a with
  | nil => rfl
  | cons x xs ih => simp [expects, ih]

theorem expects_mismatch (a : List Char) (x y : Char) (p i : List Char) (h : x ≠ y) :
    expects (a ++ x :: p) (a ++ y :: i) = none := by
  induction a with
  | nil => simp [expects, h]
  | cons c cs ih => simp [expects, ih]

theorem readUntil_append (stop : Char → Bool) (xs : List Char) (y : Char) (r : List Char)
    (hxs : ∀ x ∈ xs, stop x = false) (hy : stop y = true) :
    readUntil stop (xs ++ y :: r) = (xs, y :: r) := by
  induction xs with
  | nil => simp [readUntil, hy]
  | cons a as ih =>
    have ha := hxs a (by simp)
    simp [readUntil, ha, ih (fun x hx => hxs x (by simp [hx]))]

theorem scanComment_append (t r : List Char) (h : ∀ x ∈ t, x ≠ '-') :
    scanComment (t ++ '-' :: '-' :: '>' :: r) = some (t, r) := by
  induction t with
  | nil => rfl
  | cons a as ih =>
    have ha := h a (by simp)
    have key : scanComment (a :: (as ++ '-' :: '-' :: '>' :: r)) =
        (scanComment (as ++ '-' :: '-' :: '>' :: r)).map (fun p => (a :: p.1, p.2)) := by
      match as with
      | [] => simp [scanComment, ha]
      | b :: bs =>
        match bs with
        | [] => simp [scanComment, ha]
        | c :: cs => simp [scanComment, ha]
    rw [List.cons_append, key, ih (fun x hx => h x (by simp [hx]))]
    rfl

theorem plainNameChar_ne (c : Char) (h : plainNameChar c = true) :
    c ≠ ' ' ∧ c ≠ '\t' ∧ c ≠ '\n' ∧ c ≠ '\r' ∧ c ≠ '<' ∧ c ≠ '>' ∧ c ≠ '/' ∧ c ≠ '=' ∧
    c ≠ '"' ∧ c ≠ '!' ∧ c ≠ '?' := by
  rw [plainNameChar] at h
  simp only [Bool.not_eq_true'] at h
  simp at h
  exact h

theorem tagStop_false (c : Char) (h : plainNameChar c = true) :
    (c == ' ' || c == '/' || c == '>') = false := by
  obtain ⟨h1, _, _, _, _, h6, h7, _, _, _, _⟩ := plainNameChar_ne c h
  simp [h1, h6, h7]

theorem eqStop_false (c : Char) (h : plainNameChar c = true) : (c == '=') = false := by
  obtain ⟨_, _, _, _, _, _, _, h8, _, _, _⟩ := plainNameChar_ne c h
  simp [h8]

theorem plainName_chars (t : String) (h : plainName t = true) :
    t.data ≠ [] ∧ ∀ c ∈ t.data, plainNameChar c = true := by
  rw [plainName, Bool.and_eq_true] at h
  constructor
  · intro hc
    rw [hc] at h
    simp at h
  · exact List.all_eq_true.mp h.2

theorem plainAttrVal_chars (v : String) (h : plainAttrVal v = true) :
    ∀ c ∈ v.data, (c == '"') = false := by
  intro c hc
  have := List.all_eq_true.mp h c hc
  simp only [Bool.not_eq_true'] at this
  simp at this
  simp [this.1]

theorem parseAttrs_print (attrs : List (String × String)) : ∀ (f : Nat) (rest : List Char),
    attrs.length + 1 ≤ f →
    attrs.all (fun kv => plainName kv.1 && plainAttrVal kv.2) = true →
    rest.head? ≠ some ' ' →
    parseAttrs f (printAttrsChars attrs ++ rest) = some (attrs, rest) := by
  induction attrs with
  | nil =>
    intro f rest hf hwf hrest
    cases f with
    | zero => exact absurd hf (by omega)
    | succ f2 =>
      rw [printAttrsChars, List.nil_append]
      cases rest with
      | nil => rfl
      | cons r rs =>
        have hr : r ≠ ' ' := fun hc => hrest (by rw [hc]; rfl)
        simp [parseAttrs, hr]
  | cons kv as ih =>
    intro f rest hf hwf hrest
    obtain ⟨k, v⟩ := kv
    cases f with
    | zero => exact absurd hf (by omega)
    | succ f2 =>
      rw [List.all_cons, Bool.and_eq_true] at hwf
      rw [Bool.and_eq_true] at hwf
      obtain ⟨⟨hk, hv⟩, has⟩ := hwf
      obtain ⟨hkne, hkchars⟩ := plainName_chars k hk
      have hinput : printAttrsChars ((k, v) :: as) ++ rest =
          ' ' :: (k.data ++ '=' :: '"' :: (v.data ++ '"' :: (printAttrsChars as ++ rest))) := by
        simp [printAttrsChars]
      rw [hinput]
      have hru1 : readUntil (fun c => c == '=') (k.data ++ '=' :: '"' ::
          (v.data ++ '"' :: (printAttrsChars as ++ rest))) =
          (k.data, '=' :: '"' :: (v.data ++ '"' :: (printAttrsChars as ++ rest))) :=
        readUntil_append _ _ _ _ (fun x hx => eqStop_false x (hkchars x hx)) (by simp)
      have hru2 : readUntil (fun c => c == '"') (v.data ++ '"' :: (printAttrsChars as ++ rest)) =
          (v.data, '"' :: (printAttrsChars as ++ rest)) :=
        readUntil_append _ _ _ _ (plainAttrVal_chars v hv) (by simp)
      have hihx := ih f2 rest (by simp at hf; omega) has hrest
      obtain ⟨k0, ktl, hkd⟩ := List.exists_cons_of_ne_nil hkne
      have hkemp : k.data.isEmpty = false := by rw [hkd]; rfl
      simp [parseAttrs, hru1, hru2, hihx, hkemp]

theorem readUntil_tagStop (t : String) (ht : plainName t = true)
    (a : List (String × String)) (c : Char) (r : List Char)
    (hc : (c == ' ' || c == '/' || c == '>') = true) :
    readUntil (fun x => x == ' ' || x == '/' || x == '>')
      (t.data ++ (printAttrsChars a ++ c :: r)) =
      (t.data, printAttrsChars a ++ c :: r) := by
  obtain ⟨hne, hchars⟩ := plainName_chars t ht
  cases a with
  | nil =>
    rw [printAttrsChars, List.nil_append]
    exact readUntil_append _ _ _ _ (fun x hx => tagStop_false x (hchars x hx)) hc
  | cons kv as =>
    have hpa : printAttrsChars (kv :: as) ++ c :: r =
        ' ' :: (kv.1.data ++ '=' :: '"' :: (kv.2.data ++ '"' :: printAttrsChars as) ++ c :: r) := by
      cases kv
      simp [printAttrsChars]
    rw [hpa]
    exact readUntil_append _ _ _ _ (fun x hx => tagStop_false x (hchars x hx)) (by simp)

theorem nsize_pos (n : Node) : 1 ≤ nsize n := by
  cases n with
  | comment t => simp [nsize]
  | elem t a x cs => simp [nsize]; omega

theorem indentChars_succ (d : Nat) : indentChars (d + 1) = indentChars d ++ [' ', ' '] := by
  rw [indentChars, indentChars, show 2 * (d + 1) = 2 * d + 2 from by ring, List.replicate_add]
  rfl

theorem printNode_shape (d : Nat) (n : Node) :
    ∃ tl, printNodeChars d n = indentChars d ++ '<' :: tl := by
  cases n with
  | comment t =>
    exact ⟨'!' :: '-' :: '-' :: (t.data ++ '-' :: '-' :: '>' :: ['\n']), by simp [printNodeChars]⟩
  | elem t a txt cs =>
    cases cs with
    | nil =>
      cases txt with
      | none =>
        exact ⟨t.data ++ printAttrsChars a ++ '/' :: '>' :: ['\n'], by simp [printNodeChars]⟩
      | some s =>
        exact ⟨t.data ++ printAttrsChars a ++ '>' :: (s.data ++ '<' :: '/' :: (t.data ++ ['>', '\n'])), by simp [printNodeChars]⟩
    | cons c cs2 =>
      cases txt with
      | none =>
        exact ⟨t.data ++ printAttrsChars a ++ '>' :: '\n' :: (printNodesChars (d + 1) (c :: cs2) ++ indentChars d ++ '<' :: '/' :: (t.data ++ ['>', '\n'])), by simp [printNodeChars]⟩
      | some s =>
        exact ⟨t.data ++ printAttrsChars a ++ '>' :: (s.data ++ '\n' :: (printNodesChars (d + 1) (c :: cs2) ++ indentChars d ++ '<' :: '/' :: (t.data ++ ['>', '\n']))), by simp [printNodeChars]⟩

theorem plainText_chars (s : String) (h : plainText s = true) :
    s.data ≠ [] ∧ (∀ c ∈ s.data, (c == '<') = false) ∧
    (∀ c, s.data.head? = some c → c ≠ '\n') := by
  rw [plainText, Bool.and_eq_true, Bool.and_eq_true] at h
  obtain ⟨⟨h1, h2⟩, h3⟩ := h
  refine ⟨?_, ?_, ?_⟩
  · intro hc
    rw [hc] at h1
    simp at h1
  · intro c hc
    have := List.all_eq_true.mp h3 c hc
    simp only [Bool.not_eq_true'] at this
    simp at this
    simp [this.1]
  · intro c hc
    cases hd : s.data with
    | nil => rw [hd] at hc; simp at hc
    | cons c0 ctl =>
      rw [hd] at hc
      simp at hc
      subst hc
      rw [hd] at h2
      simpa using h2

theorem close_check_fails (d : Nat) (n : Node) (tg Y : List Char) :
    expects (indentChars d ++ '<' :: '/' :: (tg ++ ['>', '\n']))
      (printNodeChars (d + 1) n ++ Y) = none := by
  obtain ⟨tl, htl⟩ := printNode_shape (d + 1) n
  rw [htl, indentChars_succ]
  have := expects_mismatch (indentChars d) '<' ' '
    ('/' :: (tg ++ ['>', '\n'])) (' ' :: ('<' :: tl ++ Y)) (by decide)
  simpa [List.append_assoc] using this

theorem parse_print_strong (k : Nat) :
    (∀ ns : List Node, nsizeL ns < k → ∀ (f d : Nat) (tg rest : List Char),
      wfNodes ns = true → nsizeL ns + 1 ≤ f →
      parseChildren f d tg (printNodesChars (d + 1) ns ++
        (indentChars d ++ '<' :: '/' :: (tg ++ '>' :: '\n' :: rest))) = some (ns, rest)) ∧
    (∀ n : Node, nsize n ≤ k → ∀ (f d : Nat) (rest : List Char), wfNode n = true →
      nsize n ≤ f →
      parseNode f d (printNodeChars d n ++ rest) = some (n, rest)) := by
  induction k with
  | zero =>
    constructor
    · intro ns h
      exact absurd h (by omega)
    · intro n h
      have := nsize_pos n
      exact absurd h (by omega)
  | succ k ih =>
    obtain ⟨ihB, ihA⟩ := ih
    have B : ∀ ns : List Node, nsizeL ns < k + 1 → ∀ (f d : Nat) (tg rest : List Char),
        wfNodes ns = true → nsizeL ns + 1 ≤ f →
        parseChildren f d tg (printNodesChars (d + 1) ns ++
          (indentChars d ++ '<' :: '/' :: (tg ++ '>' :: '\n' :: rest))) = some (ns, rest) := by
      intro ns hns f d tg rest hwf hf
      cases f with
      | zero => exact absurd hf (by omega)
      | succ f2 =>
        cases ns with
        | nil =>
          have hbase : expects (indentChars d ++ '<' :: '/' :: (tg ++ ['>', '\n']))
              (printNodesChars (d + 1) [] ++
                (indentChars d ++ '<' :: '/' :: (tg ++ '>' :: '\n' :: rest))) = some rest := by
            have := expects_append (indentChars d ++ '<' :: '/' :: (tg ++ ['>', '\n'])) rest
            simpa [printNodesChars, List.append_assoc] using this
          simp [parseChildren, hbase]
        | cons n ns2 =>
          replace hwf : (wfNode n && wfNodes ns2) = true := hwf
          rw [Bool.and_eq_true] at hwf
          simp only [nsizeL] at hns hf
          have hszn := nsize_pos n
          have hin : printNodesChars (d + 1) (n :: ns2) ++
              (indentChars d ++ '<' :: '/' :: (tg ++ '>' :: '\n' :: rest)) =
              printNodeChars (d + 1) n ++ (printNodesChars (d + 1) ns2 ++
                (indentChars d ++ '<' :: '/' :: (tg ++ '>' :: '\n' :: rest))) := by
            rw [printNodesChars, List.append_assoc]
          rw [hin]
          have hPn := ihA n (by omega) f2 (d + 1)
            (printNodesChars (d + 1) ns2 ++
              (indentChars d ++ '<' :: '/' :: (tg ++ '>' :: '\n' :: rest)))
            hwf.1 (by omega)
          have hQ := ihB ns2 (by omega) f2 d tg rest hwf.2 (by omega)
          have hfail := close_check_fails d n tg
            (printNodesChars (d + 1) ns2 ++
              (indentChars d ++ '<' :: '/' :: (tg ++ '>' :: '\n' :: rest)))
          simp [parseChildren, hfail, hPn, hQ]
    refine ⟨B, ?_⟩
    intro n hn f d rest hwf hf
    cases f with
    | zero =>
      have := nsize_pos n
      exact absurd hf (by omega)
    | succ f2 =>
      cases n with
      | comment t =>
        replace hwf : plainComment t = true := hwf
        have hno : ∀ x ∈ t.data, x ≠ '-' := by
          intro x hx
          have := List.all_eq_true.mp hwf x hx
          intro hc
          subst hc
          simp at this
        have hinput : printNodeChars d (Node.comment t) ++ rest =
            indentChars d ++ ('<' :: '!' :: '-' :: '-' ::
              (t.data ++ '-' :: '-' :: '>' :: '\n' :: rest)) := by
          simp [printNodeChars]
        rw [hinput]
        have hscan := scanComment_append t.data ('\n' :: rest) hno
        simp [parseNode, expects_append, hscan]
      | elem t a txt cs =>
        simp only [wfNode.eq_def] at hwf
        rw [Bool.and_eq_true, Bool.and_eq_true, Bool.and_eq_true] at hwf
        obtain ⟨⟨⟨ht, hattrs⟩, htxt⟩, hcs⟩ := hwf
        simp only [nsize] at hn hf
        obtain ⟨hne, hchars⟩ := plainName_chars t ht
        obtain ⟨t0, ttl, htd⟩ := List.exists_cons_of_ne_nil hne
        have ht0 : plainNameChar t0 = true :=
          hchars t0 (by rw [htd]; exact List.mem_cons_self t0 ttl)
        have ht0ne : t0 ≠ '!' := by
          obtain ⟨_, _, _, _, _, _, _, _, _, h10, _⟩ := plainNameChar_ne t0 ht0
          exact h10
        cases cs with
        | nil =>
          cases txt with
          | none =>
            have hinput : printNodeChars d (Node.elem t a none []) ++ rest =
                indentChars d ++ ('<' :: (t.data ++
                  (printAttrsChars a ++ '/' :: '>' :: '\n' :: rest))) := by
              simp [printNodeChars]
            rw [hinput]
            have hread := readUntil_tagStop t ht a '/' ('>' :: '\n' :: rest) (by simp)
            have hpa := parseAttrs_print a (f2 + 1) ('/' :: '>' :: '\n' :: rest)
              (by omega) hattrs (by simp)
            rw [htd] at hread
            simp only [List.cons_append] at hread
            have hteta : (⟨t0 :: ttl⟩ : String) = t := by rw [← htd]
            rw [htd]
            simp [parseNode, expects_append, ht0ne, hread, hpa, hteta]
          | some s =>
            obtain ⟨hsne, hslt, hshead⟩ := plainText_chars s htxt
            obtain ⟨s0, stl, hsd⟩ := List.exists_cons_of_ne_nil hsne
            have hs0 : s0 ≠ '\n' := hshead s0 (by rw [hsd]; rfl)
            have hinput : printNodeChars d (Node.elem t a (some s) []) ++ rest =
                indentChars d ++ ('<' :: (t.data ++ (printAttrsChars a ++ '>' ::
                  (s.data ++ '<' :: '/' :: (t.data ++ '>' :: '\n' :: rest))))) := by
              simp [printNodeChars]
            rw [hinput]
            have hread := readUntil_tagStop t ht a '>'
              (s.data ++ '<' :: '/' :: (t.data ++ '>' :: '\n' :: rest)) (by simp)
            have hpa := parseAttrs_print a (f2 + 1)
              ('>' :: (s.data ++ '<' :: '/' :: (t.data ++ '>' :: '\n' :: rest)))
              (by omega) hattrs (by simp)
            have hrtext : readUntil (fun c => c == '<')
                (s.data ++ '<' :: '/' :: (t.data ++ '>' :: '\n' :: rest)) =
                (s.data, '<' :: '/' :: (t.data ++ '>' :: '\n' :: rest)) :=
              readUntil_append _ _ _ _ hslt (by simp)
            have hexp : expects ('<' :: '/' :: ((t0 :: ttl) ++ ['>', '\n']))
                ('<' :: '/' :: ((t0 :: ttl) ++ '>' :: '\n' :: rest)) = some rest := by
              have := expects_append ('<' :: '/' :: ((t0 :: ttl) ++ ['>', '\n'])) rest
              simpa [List.append_assoc] using this
            rw [htd, hsd] at hread hpa hrtext
            simp only [List.cons_append] at hread hpa hrtext hexp
            have hteta : (⟨t0 :: ttl⟩ : String) = t := by rw [← htd]
            have hseta : (⟨s0 :: stl⟩ : String) = s := by rw [← hsd]
            rw [htd, hsd]
            simp [parseNode, expects_append, ht0ne, hread, hpa, hrtext, hs0, hexp, hteta, hseta]
        | cons c cs2 =>
          cases txt with
          | some s => exact absurd htxt (by simp)
          | none =>
            have hinput : printNodeChars d (Node.elem t a none (c :: cs2)) ++ rest =
                indentChars d ++ ('<' :: (t.data ++ (printAttrsChars a ++ '>' :: '\n' ::
                  (printNodesChars (d + 1) (c :: cs2) ++
                    (indentChars d ++ '<' :: '/' :: (t.data ++ '>' :: '\n' :: rest)))))) := by
              simp [printNodeChars]
            rw [hinput]
            have hread := readUntil_tagStop t ht a '>'
              ('\n' :: (printNodesChars (d + 1) (c :: cs2) ++
                (indentChars d ++ '<' :: '/' :: (t.data ++ '>' :: '\n' :: rest)))) (by simp)
            have hpa := parseAttrs_print a (f2 + 1)
              ('>' :: '\n' :: (printNodesChars (d + 1) (c :: cs2) ++
                (indentChars d ++ '<' :: '/' :: (t.data ++ '>' :: '\n' :: rest))))
              (by omega) hattrs (by simp)
            have hsz : nsizeL (c :: cs2) < k + 1 := by
              have := nsize_pos c
              omega
            have hQ := B (c :: cs2) hsz f2 d (t0 :: ttl) rest hcs (by omega)
            rw [htd] at hread hpa
            simp only [List.cons_append] at hread hpa hQ
            have hteta : (⟨t0 :: ttl⟩ : String) = t := by rw [← htd]
            rw [htd]
            simp [parseNode, expects_append, ht0ne, hread, hpa, hQ, hteta]

theorem printAttrs_length (a : List (String × String)) :
    a.length ≤ (printAttrsChars a).length := by
  induction a with
  | nil => simp [printAttrsChars]
  | cons kv as ih =>
    obtain ⟨k, v⟩ := kv
    simp only [printAttrsChars, List.length_cons, List.length_append]
    omega

theorem nsize_le_print (k : Nat) :
    (∀ ns : List Node, nsizeL ns < k → ∀ d, nsizeL ns ≤ (printNodesChars d ns).length) ∧
    (∀ n : Node, nsize n ≤ k → ∀ d, nsize n ≤ (printNodeChars d n).length) := by
  induction k with
  | zero =>
    constructor
    · intro ns h d
      omega
    · intro n h d
      have := nsize_pos n
      omega
  | succ k ih =>
    obtain ⟨ihB, ihA⟩ := ih
    have B : ∀ ns : List Node, nsizeL ns < k + 1 → ∀ d,
        nsizeL ns ≤ (printNodesChars d ns).length := by
      intro ns hns d
      cases ns with
      | nil => simp [nsizeL, printNodesChars]
      | cons n ns2 =>
        have h1 := nsize_pos n
        simp only [nsizeL] at hns ⊢
        simp only [printNodesChars, List.length_append]
        have hA := ihA n (by omega) d
        have hB := ihB ns2 (by omega) d
        omega
    refine ⟨B, ?_⟩
    intro n hn d
    cases n with
    | comment t =>
      simp only [nsize, printNodeChars, List.length_append, List.length_cons]
      omega
    | elem t a txt cs =>
      have hal := printAttrs_length a
      cases cs with
      | nil =>
        cases txt with
        | none =>
          simp only [nsize, printNodeChars, List.length_append, List.length_cons]
          simp only [nsizeL]
          omega
        | some s =>
          simp only [nsize, printNodeChars, List.length_append, List.length_cons]
          simp only [nsizeL]
          omega
      | cons c cs2 =>
        simp only [nsize] at hn ⊢
        have h1 := nsize_pos c
        have hB := B (c :: cs2) (by omega) (d + 1)
        cases txt with
        | none =>
          simp only [printNodeChars, List.length_append, List.length_cons]
          omega
        | some s =>
          simp only [printNodeChars, List.length_append, List.length_cons]
          omega

theorem parse_print_node (n : Node) (f d : Nat) (rest : List Char)
    (hwf : wfNode n = true) (hf : nsize n ≤ f) :
    parseNode f d (printNodeChars d n ++ rest) = some (n, rest) :=
  (parse_print_strong (nsize n)).2 n (Nat.le_refl _) f d rest hwf hf

/-- Round-trip: parsing the canonical serialization of a well-formed
document yields the document back. -/
theorem parse_print_doc (doc : Node) (hwf : wfNode doc = true) :
    parseOvfXml (xmlToString doc) = some doc := by
  have hdata : (xmlToString doc).data = declChars ++ printNodeChars 0 doc := rfl
  rw [parseOvfXml, hdata, expects_append]
  have hfuel : nsize doc ≤ (printNodeChars 0 doc).length + 1 := by
    have := (nsize_le_print (nsize doc)).2 doc (Nat.le_refl _) 0
    omega
  have hp := parse_print_node doc ((printNodeChars 0 doc).length + 1) 0 [] hwf hfuel
  rw [List.append_nil] at hp
  simp [hp]

theorem commit_succeeds (sha1 sha256 : String → String) (st : OVFCustomizer) (fs : FS)
    (mfContent : String) (hne : manifestPath st ≠ descriptorPath st)
    (hmf : fs (manifestPath st) = some mfContent) :
    commit sha1 sha256 st fs =
      (writeFile (commitOvf st (xmlToString st.ovfXml) fs) (manifestPath st)
        (String.join ((readlinesPy mfContent).map
          (commitManifestLine st.ovfFilename sha1 sha256 (xmlToString st.ovfXml)))), none) := by
  have hmf1 : (commitOvf st (xmlToString st.ovfXml) fs) (manifestPath st) = some mfContent := by
    simp [commitOvf, writeFile, hne, hmf]
  have hcm : commitManifest sha1 sha256 st (xmlToString st.ovfXml)
      (commitOvf st (xmlToString st.ovfXml) fs) =
      some (writeFile (commitOvf st (xmlToString st.ovfXml) fs) (manifestPath st)
        (String.join ((readlinesPy mfContent).map
          (commitManifestLine st.ovfFilename sha1 sha256 (xmlToString st.ovfXml))))) := by
    rw [commitManifest, hmf1]
  rw [commit]
  simp only [hcm]

theorem loadDoc_of_query_heads (st : OVFCustomizer)
    (hq1 : (productQuery st.nsMap st.ovfXml).head? = some st.productSection)
    (hq2 : (vhwQuery st.nsMap st.ovfXml).head? = some st.vhwSection)
    (hq3 : (annoQuery st.nsMap st.ovfXml).head? = some st.annoSection)
    (hq4 : (fileQuery st.nsMap st.ovfXml).head? = some st.FileSection) :
    loadDoc st.ovfDir st.ovfFilename st.nsMap st.ovfXml = some st := by
  cases hql1 : productQuery st.nsMap st.ovfXml with
  | nil => rw [hql1] at hq1; exact absurd hq1 (by simp)
  | cons q1 tl1 =>
    cases hql2 : vhwQuery st.nsMap st.ovfXml with
    | nil => rw [hql2] at hq2; exact absurd hq2 (by simp)
    | cons q2 tl2 =>
      cases hql3 : annoQuery st.nsMap st.ovfXml with
      | nil => rw [hql3] at hq3; exact absurd hq3 (by simp)
      | cons q3 tl3 =>
        cases hql4 : fileQuery st.nsMap st.ovfXml with
        | nil => rw [hql4] at hq4; exact absurd hq4 (by simp)
        | cons q4 tl4 =>
          rw [hql1] at hq1
          rw [hql2] at hq2
          rw [hql3] at hq3
          rw [hql4] at hq4
          have e1 : q1 = st.productSection := by simpa using hq1
          have e2 : q2 = st.vhwSection := by simpa using hq2
          have e3 : q3 = st.annoSection := by simpa using hq3
          have e4 : q4 = st.FileSection := by simpa using hq4
          rw [loadDoc, hql1, hql2, hql3, hql4, e1, e2, e3, e4]

/-- C8 (amended): for a loaded state with any mutations applied — captured
by the anchor queries still resolving to the state's anchor paths — whose
document lies in the well-formed serializer fragment (in particular no
empty or whitespace-structural text values), committing and then
constructing a fresh editor on the same descriptor path succeeds and
reproduces the editor state exactly: same document, hence identical
annotation, version, product and product-property entries. -/
theorem commit_then_fresh_load_reproduces_state
    (sha1 sha256 : String → String) (st : OVFCustomizer) (fs : FS) (p mfContent : String)
    (hwf : wfNode st.ovfXml = true)
    (hq1 : (productQuery st.nsMap st.ovfXml).head? = some st.productSection)
    (hq2 : (vhwQuery st.nsMap st.ovfXml).head? = some st.vhwSection)
    (hq3 : (annoQuery st.nsMap st.ovfXml).head? = some st.annoSection)
    (hq4 : (fileQuery st.nsMap st.ovfXml).head? = some st.FileSection)
    (hd : dirname p = st.ovfDir) (hb : basename p = st.ovfFilename)
    (hne : manifestPath st ≠ descriptorPath st)
    (hmf : fs (manifestPath st) = some mfContent) :
    (commit sha1 sha256 st fs).2 = none ∧
    load st.nsMap p (commit sha1 sha256 st fs).1 = some st := by
  have hc := commit_succeeds sha1 sha256 st fs mfContent hne hmf
  refine ⟨by rw [hc], ?_⟩
  rw [hc, load]
  simp only [hd, hb]
  have hne2 : joinPath st.ovfDir st.ovfFilename ≠ manifestPath st :=
    fun h => hne h.symm
  have hread : writeFile (commitOvf st (xmlToString st.ovfXml) fs) (manifestPath st)
      (String.join ((readlinesPy mfContent).map
        (commitManifestLine st.ovfFilename sha1 sha256 (xmlToString st.ovfXml))))
      (joinPath st.ovfDir st.ovfFilename) = some (xmlToString st.ovfXml) := by
    rw [writeFile]
    rw [if_neg hne2]
    rw [commitOvf, writeFile, descriptorPath]
    rw [if_pos rfl]
  simp only [hread, parse_print_doc st.ovfXml hwf]
  exact loadDoc_of_query_heads st hq1 hq2 hq3 hq4

set_option maxRecDepth 400000 in
/-- Counterexample to C8 as stated: setting the annotation to the *empty
string* is a legal mutation, and the in-memory state then records text `""`
— but an empty text serializes as an empty element, which a fresh parse
reads back as *no* text, so the reloaded annotation entry (`none`) differs
from the in-memory one (`""`): the round-trip is not exact for every
mutation sequence. -/
theorem commit_then_fresh_load_loses_empty_annotation :
    annotationText ( setAnnotation stD "") = some (some "") ∧
    (commit sha1W sha2W ( setAnnotation stD "") fsDM).2 = none ∧
    (match load nmW "x.ovf" (commit sha1W sha2W ( setAnnotation stD "") fsDM).1 with
     | some st2 => annotationText st2
     | none => none) = some none :=
  ⟨by decide, by decide, by decide⟩

set_option maxRecDepth 400000 in
/-- Witness for C8 on a loaded-and-mutated concrete state: after a
product-property edit, commit followed by a fresh load reproduces the
state. -/
theorem commit_then_fresh_load_reproduces_state_witness :
    wfNode (setProductProperty stD "k" "v" "string" false false).ovfXml = true ∧
    (commit sha1W sha2W (setProductProperty stD "k" "v" "string" false false) fsDM).2 = none ∧
    load (setProductProperty stD "k" "v" "string" false false).nsMap "x.ovf"
        (commit sha1W sha2W (setProductProperty stD "k" "v" "string" false false) fsDM).1 =
      some (setProductProperty stD "k" "v" "string" false false) :=
  ⟨by decide,
   (commit_then_fresh_load_reproduces_state sha1W sha2W
      (setProductProperty stD "k" "v" "string" false false) fsDM "x.ovf" mfW
      (by decide) (by decide) (by decide) (by decide) (by decide)
      (by decide) (by decide) (by decide) (by decide)).1,
   (commit_then_fresh_load_reproduces_state sha1W sha2W
      (setProductProperty stD "k" "v" "string" false false) fsDM "x.ovf" mfW
      (by decide) (by decide) (by decide) (by decide) (by decide)
      (by decide) (by decide) (by decide) (by decide)).2⟩

end CustomizeOva
